import Mathlib

/-!
Verification development for the single-elimination image tournament engine
(`src/tournament/bracket.py`).  The Python data model and operations are
shallowly embedded as executable Lean definitions: dictionaries become
association lists (Python dicts preserve insertion order), in-place mutation
becomes explicit state passing on a `Tournament` record, the external judging
oracle, the random shuffle and the clock become explicit functional inputs,
and the durable state file becomes a `savedFile` component of the state.
-/

namespace AquaPfp

/-! ## Text helpers (Python string semantics on `List Char`) -/

/-- The ASCII whitespace characters removed by Python `str.strip()`
    (space, tab, newline, carriage return, vertical tab, form feed). -/
def pyWS (c : Char) : Bool :=
  c == ' ' || c == '\t' || c == '\n' || c == '\r' ||
    c == Char.ofNat 11 || c == Char.ofNat 12

/-- Python `str.strip()`: drop leading and trailing whitespace. -/
def pyStrip (t : List Char) : List Char :=
  ((t.dropWhile pyWS).reverse.dropWhile pyWS).reverse

/-- Python substring test `needle in hay` (contiguous occurrence). -/
def containsSeq (needle : List Char) : List Char → Bool
  | [] => needle.isEmpty
  | c :: rest => needle.isPrefixOf (c :: rest) || containsSeq needle rest

/-- Python `s.split('\n')[0]`: the text up to the first newline. -/
def firstLineOf (t : List Char) : List Char :=
  t.takeWhile (fun c => c != '\n')

/-! ## Verdict parsing (`Tournament._judge_match`, lines 314-326) -/

/-- Which of the two contestants the parsed oracle text selects. -/
inductive Verdict where
  | a
  | b
deriving DecidableEq, Repr, Inhabited

/-- Lines 321-326 of `_judge_match`: the fallback applied when the first
    line carries no choice token.  Python:
    `response_text.lower().startswith('a') or 'image a' in response_text.lower()[:50]`. -/
def fallbackScan (response_text : List Char) : Verdict :=
  let lowered := response_text.map Char.toLower
  if (match lowered with
      | c :: _ => c == 'a'
      | [] => false) || containsSeq (String.toList "image a") (lowered.take 50) then
    Verdict.a
  else
    Verdict.b

/-- Lines 314-326 of `_judge_match`: parse the (already stripped) oracle
    response text.  `first_line = response_text.split('\n')[0].strip().upper()`;
    `'A' in first_line and 'B' not in first_line` picks A, `elif 'B' in
    first_line` picks B, otherwise the fallback scan runs. -/
def parseVerdict (response_text : List Char) : Verdict :=
  let first_line := (pyStrip (firstLineOf response_text)).map Char.toUpper
  if first_line.contains 'A' && !first_line.contains 'B' then
    Verdict.a
  else if first_line.contains 'B' then
    Verdict.b
  else
    fallbackScan response_text

/-- Modelled from the spec: the verdict-parsing procedure exactly as the
    claim words it — the first line decides only when exactly one of the
    tokens `A`, `B` occurs there (`A` xor `B`); when neither or both occur,
    the fallback scan of the text's first characters runs. -/
def specParseVerdict (response_text : List Char) : Verdict :=
  let first_line := (pyStrip (firstLineOf response_text)).map Char.toUpper
  let hasA := first_line.contains 'A'
  let hasB := first_line.contains 'B'
  if hasA && !hasB then
    Verdict.a
  else if hasB && !hasA then
    Verdict.b
  else
    fallbackScan response_text

/-- The upper-cased first line of `t` carries the single-letter token `c`. -/
def firstLineToken (t : List Char) (c : Char) : Bool :=
  ((pyStrip (firstLineOf t)).map Char.toUpper).contains c

/-! ## `ceil(log2)` via Python `int.bit_length` (line 178) -/

/-- Fuel-driven core of `bit_length`; structural in the fuel so that the
    kernel can evaluate it. -/
def bitLengthAux : Nat → Nat → Nat
  | 0, _ => 0
  | _ + 1, 0 => 0
  | fuel + 1, m + 1 => bitLengthAux fuel ((m + 1) / 2) + 1

/-- Python `m.bit_length()`: the number of binary digits of `m`
    (`0` for `m = 0`). -/
def bitLength (m : Nat) : Nat :=
  bitLengthAux m m

/-! ## Data model (`Contestant`, `Match`, `TournamentState`, lines 37-90) -/

/-- An image competing in the tournament (dataclass `Contestant`). -/
structure Contestant where
  id : String
  path : String
  source : String := "unknown"
  source_url : String := ""
  author : String := ""
  eliminated : Bool := false
  wins : Nat := 0
  losses : Nat := 0
deriving DecidableEq, Repr, Inhabited

/-- A single match between two contestants (dataclass `Match`). -/
structure Match where
  id : String
  round_num : Nat
  contestant_a : String
  contestant_b : String
  winner : Option String := none
  reasoning : String := ""
  completed : Bool := false
deriving DecidableEq, Repr, Inhabited

/-- The persisted tournament state (dataclass `TournamentState`).  The
    Python dict `contestants` becomes an insertion-ordered association
    list; timestamps become abstract `Nat` clock readings. -/
structure TournamentState where
  contestants : List (String × Contestant) := []
  matchList : List Match := []
  current_round : Nat := 1
  total_rounds : Nat := 0
  started_at : Nat := 0
  last_updated : Nat := 0
  winner_id : Option String := none
deriving DecidableEq, Repr, Inhabited

/-- The in-memory `Tournament` object together with its environment: the
    durable state file (`savedFile`, `None` while no file exists), a count
    of completed write operations, the index of the next oracle call, and
    the current clock reading (the clock ticks at each durable write,
    mirroring `datetime.utcnow()` being sampled there). -/
structure Tournament where
  contestants : List Contestant
  matchList : List Match
  state : TournamentState
  savedFile : Option TournamentState := none
  saveCount : Nat := 0
  oracleCalls : Nat := 0
  now : Nat := 0
deriving DecidableEq, Repr, Inhabited

/-! ## Engine operations (`Tournament` methods) -/

/-- Update the contestant stored under key `cid` (Python
    `self.contestants[cid] = ...` on the insertion-ordered dict). -/
def updC (cs : List Contestant) (cid : String) (f : Contestant → Contestant) :
    List Contestant :=
  cs.map fun c => if c.id = cid then f c else c

/-- The serialized form of the in-memory state: `_save_state` lines 220-221
    (`state.contestants`/`state.matchList` refreshed from memory). -/
def Tournament.serialize (t : Tournament) : TournamentState :=
  { t.state with contestants := t.contestants.map fun c => (c.id, c)
               , matchList := t.matchList }

/-- `Tournament._save_state` (lines 218-222) followed by
    `TournamentState.save` (lines 85-90): refresh the serialized fields,
    stamp `last_updated` with the current clock, write the file. -/
def Tournament.save_state (t : Tournament) : Tournament :=
  let st := { t.serialize with last_updated := t.now }
  { t with state := st, savedFile := some st
         , saveCount := t.saveCount + 1, now := t.now + 1 }

/-- `Tournament.get_pending_matches` (lines 334-337). -/
def Tournament.get_pending_matches (t : Tournament) : List Match :=
  t.matchList.filter fun m => m.round_num == t.state.current_round && !m.completed

/-- Positions (into `t.matchList`) of the pending matches of the current
    round, in list order; Python iterates the corresponding `Match`
    objects by reference, which positions model. -/
def pendingFrom (cur : Nat) : Nat → List Match → List Nat
  | _, [] => []
  | i, m :: rest =>
    if m.round_num == cur && !m.completed then i :: pendingFrom cur (i + 1) rest
    else pendingFrom cur (i + 1) rest

/-- The pending positions of the current round. -/
def Tournament.pendingIdxs (t : Tournament) : List Nat :=
  pendingFrom t.state.current_round 0 t.matchList

/-- One match-processing attempt from the batch loop of `Tournament.run`
    (lines 444-465): call the oracle (`_judge_match`, lines 261-332); an
    adapter exception (`oracle = none`) leaves everything unchanged and
    moves on (`continue`, line 462, which also skips the state write);
    a verdict strips the response text, parses it, records winner /
    reasoning / completed on the match and writes the state file. -/
def Tournament.processMatch (oracle : Nat → Option String) (t : Tournament)
    (i : Nat) : Tournament :=
  match oracle t.oracleCalls with
  | none => { t with oracleCalls := t.oracleCalls + 1 }
  | some raw =>
    let m := t.matchList.getD i default
    let response_text := pyStrip raw.toList
    let wid := match parseVerdict response_text with
      | Verdict.a => m.contestant_a
      | Verdict.b => m.contestant_b
    let m2 := { m with winner := some wid
                     , reasoning := String.mk response_text
                     , completed := true }
    Tournament.save_state
      { t with matchList := t.matchList.set i m2, oracleCalls := t.oracleCalls + 1 }

/-- Match id `f"r{round}_m{k}"`. -/
def matchId (r k : Nat) : String :=
  "r" ++ Nat.repr r ++ "_m" ++ Nat.repr k

/-- A fresh round-`r` match numbered `k` between `a` and `b`. -/
def mkMatch (r k : Nat) (a b : String) : Match :=
  { id := matchId r k, round_num := r, contestant_a := a, contestant_b := b }

/-- The pairing loop of `_create_round_matches` (lines 208-216): pair
    consecutive ids; an unpaired trailing id gets nothing. -/
def mkPairs (r : Nat) : Nat → List String → List Match
  | _, [] => []
  | _, [_] => []
  | k, a :: b :: rest => mkMatch r k a b :: mkPairs r (k + 1) rest

/-- The pairing loop of `advance_round` (lines 390-402): pair consecutive
    ids; an unpaired trailing id is reported as the bye recipient. -/
def mkPairsBye (r : Nat) : Nat → List String → List Match × Option String
  | _, [] => ([], none)
  | _, [x] => ([], some x)
  | k, a :: b :: rest =>
    let pr := mkPairsBye r (k + 1) rest
    (mkMatch r k a b :: pr.1, pr.2)

/-- Line 371: `loser_id = contestant_a if match.winner == contestant_b
    else contestant_b`. -/
def loserOf (m : Match) : String :=
  if m.winner == some m.contestant_b then m.contestant_a else m.contestant_b

/-- One `elimStep` per match of the loop at lines 369-374: for a completed
    match of the current round, mark the loser eliminated and count the
    loss, then count the win for the stored winner. -/
def elimStep (cur : Nat) (acc : List Contestant) (m : Match) : List Contestant :=
  if m.round_num == cur && m.completed then
    let acc1 := updC acc (loserOf m) fun c =>
      { c with eliminated := true, losses := c.losses + 1 }
    match m.winner with
    | some w => updC acc1 w fun c => { c with wins := c.wins + 1 }
    | none => acc1
  else acc

/-- Ids of the non-eliminated contestants, in insertion order
    (line 377). -/
def liveIds (cs : List Contestant) : List String :=
  (cs.filter fun c => !c.eliminated).map (·.id)

/-- `Tournament.advance_round` (lines 363-404): eliminate the losers of
    the completed current-round matches; if exactly one contestant
    remains it becomes the winner; otherwise bump the round, shuffle the
    survivors, pair them (odd leftover receives a bye) and write state. -/
def Tournament.advance_round (shuffle : List String → List String)
    (t : Tournament) : Tournament :=
  let cur := t.state.current_round
  let cs1 := t.matchList.foldl (elimStep cur) t.contestants
  let remaining := liveIds cs1
  if remaining.length == 1 then
    Tournament.save_state
      { t with contestants := cs1
             , state := { t.state with winner_id := remaining.head? } }
  else
    let r2 := cur + 1
    let prs := mkPairsBye r2 0 (shuffle remaining)
    let cs2 := match prs.2 with
      | some x => updC cs1 x fun c => { c with wins := c.wins + 1 }
      | none => cs1
    Tournament.save_state
      { t with contestants := cs2
             , matchList := t.matchList ++ prs.1
             , state := { t.state with current_round := r2 } }

/-- One iteration of the `while` loop of `Tournament.run` (lines 415-470):
    if no match of the current round is pending, advance the round; stop
    when a winner appeared; otherwise attempt the first `batch_size`
    pending matches in order. -/
def Tournament.runBody (oracle : Nat → Option String)
    (shuffle : List String → List String) (batch_size : Nat)
    (t : Tournament) : Tournament :=
  let t1 := if t.get_pending_matches.isEmpty then t.advance_round shuffle else t
  if t1.state.winner_id.isSome then t1
  else (t1.pendingIdxs.take batch_size).foldl (Tournament.processMatch oracle) t1

/-- The `while self.state.winner_id is None` loop of `Tournament.run`,
    driven by explicit fuel (each unit is one iteration of the Python
    loop; the loop exits as soon as `winner_id` is set). -/
def Tournament.runLoop (oracle : Nat → Option String)
    (shuffle : List String → List String) (batch_size : Nat) :
    Nat → Tournament → Tournament
  | 0, t => t
  | fuel + 1, t =>
    if t.state.winner_id.isSome then t
    else Tournament.runLoop oracle shuffle batch_size fuel
           (t.runBody oracle shuffle batch_size)

/-- `Tournament._initialize_tournament` (lines 167-193) on an already
    registered contestant pool: `None` models the `ValueError` raised for
    an empty pool; otherwise shuffle the ids, derive the round count via
    `(n - 1).bit_length()`, hand the first `byes` ids a bye, pair the
    rest into round-1 matches, and write the initial state file. -/
def initializeTournament (shuffle : List String → List String)
    (cs : List Contestant) : Option Tournament :=
  if cs.isEmpty then none
  else
    let ids := shuffle (cs.map (·.id))
    let n := ids.length
    let rounds := bitLength (n - 1)
    let bracket_size := 2 ^ rounds
    let byes := bracket_size - n
    let byeIds := ids.take byes
    let competing := ids.drop byes
    let cs1 := byeIds.foldl
      (fun acc cid => updC acc cid fun c => { c with wins := c.wins + 1 }) cs
    some (Tournament.save_state
      { contestants := cs1
      , matchList := mkPairs 1 0 competing
      , state := { total_rounds := rounds } })

/-- `Tournament.__init__` + `_load_state` resuming from an existing state
    file (lines 96-118): rebuild the contestants and matches from the
    persisted document. -/
def resumeTournament (file : TournamentState) : Tournament :=
  { contestants := file.contestants.map (·.2)
  , matchList := file.matchList
  , state := file
  , savedFile := some file
  , saveCount := 0
  , oracleCalls := 0
  , now := file.last_updated + 1 }

/-! ## Contestant registry (`_load_state` / `_discover_images`,
    lines 108-165) -/

/-- One discovered image: its raw bytes plus the metadata the registry
    resolves for it (lines 154-162 fold the sidecar metadata files into
    these fields before the `Contestant` is built). -/
structure ImageItem where
  content : List Nat
  path : String
  source : String
  source_url : String
  author : String
deriving DecidableEq, Repr, Inhabited

/-- Lines 147-163: the contestant built for one image; `hash` abstracts
    the truncated md5 content hash of line 150. -/
def mkContestant (hash : List Nat → String) (it : ImageItem) : Contestant :=
  { id := "img_" ++ hash it.content
  , path := it.path
  , source := it.source
  , source_url := it.source_url
  , author := it.author }

/-- Python dict assignment `self.contestants[cid] = c`: overwrite in place
    when the key exists, append otherwise. -/
def dictInsert (cs : List Contestant) (c : Contestant) : List Contestant :=
  if cs.any fun old => old.id == c.id then
    cs.map fun old => if old.id = c.id then c else old
  else cs ++ [c]

/-- `Tournament._discover_images` (lines 124-165) restricted to its
    observable effect on the contestant dict. -/
def discover_images (hash : List Nat → String) (items : List ImageItem) :
    List Contestant :=
  items.foldl (fun acc it => dictInsert acc (mkContestant hash it)) []

/-- `Tournament._load_state` (lines 108-122) restricted to the contestant
    dict: when the loaded state already has contestants the tournament is
    resumed from them verbatim and discovery never runs; only an empty
    loaded state triggers discovery. -/
def load_contestants (saved : List (String × Contestant))
    (hash : List Nat → String) (items : List ImageItem) : List Contestant :=
  if saved.isEmpty then discover_images hash items else saved.map (·.2)

/-! ## JSON-level persistence contract (`TournamentState.load` /
    `TournamentState.save`, lines 76-90) -/

/-- An untyped JSON value (the loaded dataclass fields hold the raw
    parsed values; `load`/`save` never inspect their shapes). -/
inductive JVal where
  | null
  | jbool (b : Bool)
  | jnum (n : Int)
  | jstr (s : String)
  | jarr (elems : List JVal)
  | jobj (entries : List (String × JVal))
deriving Repr, Inhabited

/-- The loaded `TournamentState` at the JSON level: one raw value per
    dataclass field. -/
structure StateDoc where
  contestants : JVal
  matchList : JVal
  current_round : JVal
  total_rounds : JVal
  started_at : JVal
  last_updated : JVal
  winner_id : JVal
deriving Repr, Inhabited

/-- The seven dataclass field names of `TournamentState`. -/
def knownStateKeys : List String :=
  ["contestants", "matches", "current_round", "total_rounds",
   "started_at", "last_updated", "winner_id"]

/-- First value stored under key `k`. -/
def lookupKey (d : List (String × JVal)) (k : String) : Option JVal :=
  (d.find? fun kv => kv.1 == k).map (·.2)

/-- `TournamentState.load` (lines 76-83) on a parsed JSON object:
    `cls(**data)` raises `TypeError` (here `none`) as soon as any key is
    not a dataclass field; otherwise every missing field takes its
    dataclass default and every present field takes the raw value. -/
def StateDoc.load (d : List (String × JVal)) : Option StateDoc :=
  if d.all fun kv => knownStateKeys.contains kv.1 then
    some { contestants := (lookupKey d "contestants").getD (JVal.jobj [])
         , matchList := (lookupKey d "matches").getD (JVal.jarr [])
         , current_round := (lookupKey d "current_round").getD (JVal.jnum 1)
         , total_rounds := (lookupKey d "total_rounds").getD (JVal.jnum 0)
         , started_at := (lookupKey d "started_at").getD (JVal.jstr "")
         , last_updated := (lookupKey d "last_updated").getD (JVal.jstr "")
         , winner_id := (lookupKey d "winner_id").getD JVal.null }
  else none

/-- `TournamentState.save` (lines 85-90): stamp `last_updated` with the
    current clock and dump the seven fields in dataclass order. -/
def StateDoc.save (clock : String) (st : StateDoc) : List (String × JVal) :=
  [("contestants", st.contestants), ("matches", st.matchList),
   ("current_round", st.current_round), ("total_rounds", st.total_rounds),
   ("started_at", st.started_at), ("last_updated", JVal.jstr clock),
   ("winner_id", st.winner_id)]

/-! ## Derived notions used by the proofs -/

/-- The matches of the current round. -/
def curMatches (t : Tournament) : List Match :=
  t.matchList.filter fun m => m.round_num == t.state.current_round

/-- The two participant ids of a match. -/
def partsOf (m : Match) : List String :=
  [m.contestant_a, m.contestant_b]

/-- All participant ids of the current round's matches. -/
def partsCur (t : Tournament) : List String :=
  (curMatches t).flatMap partsOf

/-- The pairing-relevant projection of a match: round number and the two
    participants (the fields `_judge_match` never changes). -/
def projM (m : Match) : Nat × String × String :=
  (m.round_num, m.contestant_a, m.contestant_b)

/-- The elements of a list that get paired by the consecutive-pairing
    loops (everything except a possible unpaired last element). -/
def evenPrefix : List String → List String
  | a :: b :: rest => a :: b :: evenPrefix rest
  | _ => []

/-- The pointwise contestant update performed by the elimination loop of
    `advance_round` (lines 369-374) for a single match. -/
def elimUpd (cur : Nat) (m : Match) (c : Contestant) : Contestant :=
  if m.round_num == cur && m.completed then
    let c1 := if c.id = loserOf m then
        { c with eliminated := true, losses := c.losses + 1 }
      else c
    match m.winner with
    | some w => if c1.id = w then { c1 with wins := c1.wins + 1 } else c1
    | none => c1
  else c

/-- The combined pointwise effect of the elimination loop over a match
    list. -/
def combElim (cur : Nat) (ms : List Match) (c : Contestant) : Contestant :=
  ms.foldl (fun x m => elimUpd cur m x) c

/-- The contestant dict after the elimination loop of `advance_round`
    has processed every match. -/
def elimApplied (t : Tournament) : List Contestant :=
  t.contestants.map (combElim t.state.current_round t.matchList)

/-- The number of non-eliminated contestants. -/
def liveCount (t : Tournament) : Nat :=
  (liveIds t.contestants).length

/-- The number of pending matches of the current round. -/
def pendCount (t : Tournament) : Nat :=
  t.matchList.countP fun m => m.round_num == t.state.current_round && !m.completed

/-- Fuel sufficient for `runLoop` to finish a tournament over `n`
    contestants (one unit per loop iteration; each iteration either
    strictly shrinks the set of live contestants or completes at least
    one pending match of the current round). -/
def runFuel (n : Nat) : Nat :=
  n * (n + 1) + n + 1

/-- The reachability invariant maintained by the engine at the top of the
    `run` loop. `orig` is the id list of the registered pool. -/
structure Inv (orig : List String) (t : Tournament) : Prop where
  ids_nodup : (t.contestants.map (·.id)).Nodup
  ids_orig : t.contestants.map (·.id) = orig
  rounds_le : ∀ m ∈ t.matchList, m.round_num ≤ t.state.current_round
  cur_live : ∀ m ∈ curMatches t,
    m.contestant_a ∈ liveIds t.contestants ∧ m.contestant_b ∈ liveIds t.contestants
  parts_nodup : (partsCur t).Nodup
  cur_winner : ∀ m ∈ curMatches t, m.completed = true →
    m.winner = some m.contestant_a ∨ m.winner = some m.contestant_b
  live_pos : 1 ≤ liveCount t
  cur_exists : t.state.winner_id = none → 2 ≤ liveCount t → 1 ≤ (curMatches t).length
  cur_le_live : (curMatches t).length ≤ liveCount t

/-! ## Concrete instances for witnesses and counterexamples -/

/-- A two-image pool. -/
def demoPool2 : List Contestant :=
  [{ id := "x", path := "images/x.png" }, { id := "y", path := "images/y.png" }]

/-- A five-image pool. -/
def demoPool5 : List Contestant :=
  ["c1", "c2", "c3", "c4", "c5"].map fun s => { id := s, path := s }

/-- An eight-image pool. -/
def demoPool8 : List Contestant :=
  ["d1", "d2", "d3", "d4", "d5", "d6", "d7", "d8"].map fun s => { id := s, path := s }

/-- The freshly initialized two-image tournament (identity shuffle). -/
def demoInit : Tournament :=
  (initializeTournament id demoPool2).getD default

/-- The two-image tournament after its single match has been judged
    (oracle answers `A`), before any round advancement. -/
def demoStep1 : Tournament :=
  Tournament.processMatch (fun _ => some "A") demoInit 0

/-- A concrete content-hash function for the registry instances. -/
def demoHash : List Nat → String :=
  fun bytes => if bytes = [1] then "aaa" else "bbb"

/-- The contestant already present in the loaded state. -/
def demoSavedC : Contestant :=
  { id := "img_aaa", path := "images/old.png" }

/-- A discovered image whose content hash does not occur in the loaded
    state. -/
def demoNewItem : ImageItem :=
  { content := [2], path := "images/new.png", source := "s"
  , source_url := "", author := "" }

/-- A state document in the documented seven-field layout extended with
    one unknown future field. -/
def demoDocExtra : List (String × JVal) :=
  [("contestants", JVal.jobj []), ("matches", JVal.jarr []),
   ("current_round", JVal.jnum 1), ("total_rounds", JVal.jnum 0),
   ("started_at", JVal.jstr ""), ("last_updated", JVal.jstr "")
   , ("winner_id", JVal.null), ("schema_version", JVal.jnum 2)]

/-! # Lemmas -/

/-! ## Verdict parsing -/

theorem mem_dropWhile_of_neg {α : Type} {p : α → Bool} {a : α} :
    ∀ {l : List α}, a ∈ l → p a = false → a ∈ l.dropWhile p := by
  intro l hl ha
  induction l with
  | nil => cases hl
  | cons x xs ih =>
    rw [List.dropWhile_cons]
    rcases List.mem_cons.1 hl with rfl | hx
    · simp [ha]
    · split
      · exact ih hx
      · exact List.mem_cons_of_mem _ hx

theorem mem_pyStrip {c : Char} {l : List Char} (h : c ∈ l) (hc : pyWS c = false) :
    c ∈ pyStrip l := by
  unfold pyStrip
  rw [List.mem_reverse]
  refine mem_dropWhile_of_neg ?_ hc
  rw [List.mem_reverse]
  exact mem_dropWhile_of_neg h hc

theorem toUpper_eq_self_of_pyWS {c : Char} (h : pyWS c = true) : c.toUpper = c := by
  have hd : ((((c = ' ' ∨ c = '\t') ∨ c = '\n') ∨ c = '\r') ∨
      c = Char.ofNat 11) ∨ c = Char.ofNat 12 := by
    simpa [pyWS] using h
  rcases hd with ((((rfl | rfl) | rfl) | rfl) | rfl) | rfl <;> decide

theorem firstLineToken_true_of_mem {t : List Char} {u : Char}
    (h : u ∈ (firstLineOf t).map Char.toUpper) (hu : ∀ c, pyWS c = true → c.toUpper ≠ u) :
    firstLineToken t u = true := by
  rcases List.mem_map.1 h with ⟨c, hc, hup⟩
  have hcw : pyWS c = false := by
    cases hpw : pyWS c
    · rfl
    · exact absurd hup (hu c hpw)
  exact List.elem_eq_true_of_mem (List.mem_map.2 ⟨c, mem_pyStrip hc hcw, hup⟩)

/-- Claim C5 — for every oracle response text whose first line, upper-cased,
    contains both the token `A` and the token `B`, verdict parsing resolves
    the match to the second contestant (`Verdict.b`), regardless of the rest
    of the text: the `elif 'B' in first_line` branch of `_judge_match` fires
    because the `'A' in first_line and 'B' not in first_line` test fails. -/
theorem C5_both_tokens_resolve_b (t : List Char)
    (hA : 'A' ∈ (firstLineOf t).map Char.toUpper)
    (hB : 'B' ∈ (firstLineOf t).map Char.toUpper) :
    parseVerdict t = Verdict.b := by
  have hBfl : firstLineToken t 'B' = true :=
    firstLineToken_true_of_mem hB (by intro c hc; rw [toUpper_eq_self_of_pyWS hc]
                                      intro h; subst h; exact absurd hc (by decide))
  have := hA
  unfold firstLineToken at hBfl
  simp only [parseVerdict, hBfl, Bool.not_true, Bool.and_false]
  rfl

/-- Witness for C5 at the concrete response text `"A or B, hard call"`. -/
theorem C5_both_tokens_resolve_b_witness :
    parseVerdict (String.toList "A or B, hard call") = Verdict.b :=
  C5_both_tokens_resolve_b _ (by decide) (by decide)

/-- Counterexample to claim C4 as stated: on the oracle response
    `"a and B"` the first line carries both tokens, and the code resolves
    directly to contestant B (`elif 'B' in first_line`), whereas the
    claimed procedure (both tokens present ⇒ fall back to scanning the
    text's first characters, where the lower-cased text starts with `'a'`)
    would resolve to contestant A. -/
theorem C4_both_tokens_counterexample :
    parseVerdict (String.toList "a and B") = Verdict.b ∧
    specParseVerdict (String.toList "a and B") = Verdict.a := by
  exact ⟨rfl, rfl⟩

/-- Claim C4 (amended) — verdict parsing inspects the stripped, upper-cased
    first line: if it contains `B` the second contestant wins outright (even
    when `A` is also present); if it contains `A` and not `B` the first
    contestant wins; only when neither token appears does the fallback scan
    of the text's first characters run (with its default to the second
    contestant); outside the both-tokens case this coincides with the
    spec-described parser. -/
theorem C4_parse_regions (t : List Char) :
    (firstLineToken t 'B' = true → parseVerdict t = Verdict.b) ∧
    (firstLineToken t 'A' = true → firstLineToken t 'B' = false →
      parseVerdict t = Verdict.a) ∧
    (firstLineToken t 'A' = false → firstLineToken t 'B' = false →
      parseVerdict t = fallbackScan t) ∧
    ((firstLineToken t 'A' = true ∧ firstLineToken t 'B' = true) ∨
      parseVerdict t = specParseVerdict t) := by
  unfold firstLineToken
  refine ⟨fun hB => ?_, fun hA hB => ?_, fun hA hB => ?_, ?_⟩
  · simp only [parseVerdict, hB, Bool.not_true, Bool.and_false]; rfl
  · simp only [parseVerdict, hA, hB, Bool.not_false, Bool.and_true]; rfl
  · simp only [parseVerdict, hA, hB, Bool.false_and]; rfl
  · cases hA : ((pyStrip (firstLineOf t)).map Char.toUpper).contains 'A' with
    | false =>
      refine Or.inr ?_
      simp only [parseVerdict, specParseVerdict, hA, Bool.false_and,
        Bool.not_false, Bool.and_true]
    | true =>
      cases hB : ((pyStrip (firstLineOf t)).map Char.toUpper).contains 'B' with
      | false =>
        refine Or.inr ?_
        simp only [parseVerdict, specParseVerdict, hA, hB, Bool.not_false,
          Bool.and_true, Bool.true_and]
        rfl
      | true => exact Or.inl ⟨rfl, rfl⟩

/-- Witness for C4 (amended) at the concrete response `"B looks nicer"`. -/
theorem C4_parse_regions_witness :
    parseVerdict (String.toList "B looks nicer") = Verdict.b :=
  (C4_parse_regions (String.toList "B looks nicer")).1 (by decide)

/-! ## `bit_length` and `ceil(log2)` -/

theorem bitLengthAux_le_iff :
    ∀ (fuel m k : Nat), m ≤ fuel → (bitLengthAux fuel m ≤ k ↔ m < 2 ^ k) := by
  intro fuel
  induction fuel with
  | zero =>
    intro m k hm
    have hm0 : m = 0 := Nat.le_zero.1 hm
    subst hm0
    simp [bitLengthAux, Nat.pos_pow_of_pos]
  | succ fuel ih =>
    intro m k hm
    cases m with
    | zero =>
      simp [bitLengthAux, Nat.pos_pow_of_pos]
    | succ m0 =>
      have hdiv : (m0 + 1) / 2 ≤ fuel := by omega
      cases k with
      | zero =>
        simp [bitLengthAux]
      | succ k0 =>
        have := ih ((m0 + 1) / 2) k0 hdiv
        constructor
        · intro h
          have h1 : bitLengthAux fuel ((m0 + 1) / 2) ≤ k0 := by
            simpa [bitLengthAux] using h
          have h2 := this.1 h1
          have : m0 + 1 < 2 ^ k0 * 2 := (Nat.div_lt_iff_lt_mul (by norm_num)).1 h2
          calc m0 + 1 < 2 ^ k0 * 2 := this
            _ = 2 ^ (k0 + 1) := (Nat.pow_succ 2 k0).symm
        · intro h
          have h2 : (m0 + 1) / 2 < 2 ^ k0 := by
            refine (Nat.div_lt_iff_lt_mul (by norm_num)).2 ?_
            calc m0 + 1 < 2 ^ (k0 + 1) := h
              _ = 2 ^ k0 * 2 := Nat.pow_succ 2 k0
          have h1 := this.2 h2
          simpa [bitLengthAux] using Nat.succ_le_succ h1

theorem bitLength_le_iff (m k : Nat) : bitLength m ≤ k ↔ m < 2 ^ k :=
  bitLengthAux_le_iff m m k (le_refl m)

/-- `(n-1).bit_length()` computes `ceil(log2 n)` for every `n ≥ 1`. -/
theorem bitLength_pred_eq_clog (n : Nat) (h : 1 ≤ n) :
    bitLength (n - 1) = Nat.clog 2 n := by
  apply le_antisymm
  · rw [bitLength_le_iff]
    have hle : n ≤ 2 ^ Nat.clog 2 n :=
      (Nat.le_pow_iff_clog_le (by norm_num)).2 (le_refl _)
    omega
  · rw [← Nat.le_pow_iff_clog_le (by norm_num)]
    have h2 : n - 1 < 2 ^ bitLength (n - 1) := (bitLength_le_iff _ _).1 (le_refl _)
    omega

/-! ## Field-preservation helpers -/

theorem save_state_contestants (t : Tournament) :
    t.save_state.contestants = t.contestants := rfl

theorem save_state_matchList (t : Tournament) :
    t.save_state.matchList = t.matchList := rfl

theorem save_state_current_round (t : Tournament) :
    t.save_state.state.current_round = t.state.current_round := rfl

theorem save_state_total_rounds (t : Tournament) :
    t.save_state.state.total_rounds = t.state.total_rounds := rfl

theorem save_state_winner_id (t : Tournament) :
    t.save_state.state.winner_id = t.state.winner_id := rfl

theorem save_state_saveCount (t : Tournament) :
    t.save_state.saveCount = t.saveCount + 1 := rfl

/-- After a write, the durable file holds exactly the serialization of the
    resulting in-memory state. -/
theorem save_state_savedFile (t : Tournament) :
    t.save_state.savedFile = some t.save_state.serialize := rfl

theorem processMatch_contestants (o : Nat → Option String) (t : Tournament) (i : Nat) :
    (t.processMatch o i).contestants = t.contestants := by
  unfold Tournament.processMatch
  cases o t.oracleCalls <;> rfl

theorem processMatch_current_round (o : Nat → Option String) (t : Tournament) (i : Nat) :
    (t.processMatch o i).state.current_round = t.state.current_round := by
  unfold Tournament.processMatch
  cases o t.oracleCalls <;> rfl

theorem processMatch_total_rounds (o : Nat → Option String) (t : Tournament) (i : Nat) :
    (t.processMatch o i).state.total_rounds = t.state.total_rounds := by
  unfold Tournament.processMatch
  cases o t.oracleCalls <;> rfl

theorem processMatch_winner_id (o : Nat → Option String) (t : Tournament) (i : Nat) :
    (t.processMatch o i).state.winner_id = t.state.winner_id := by
  unfold Tournament.processMatch
  cases o t.oracleCalls <;> rfl

theorem advance_round_total_rounds (sh : List String → List String) (t : Tournament) :
    (t.advance_round sh).state.total_rounds = t.state.total_rounds := by
  unfold Tournament.advance_round
  dsimp only
  split <;> rfl

theorem foldl_processMatch_total_rounds (o : Nat → Option String) :
    ∀ (batch : List Nat) (t : Tournament),
      ((batch.foldl (Tournament.processMatch o) t).state.total_rounds =
        t.state.total_rounds) := by
  intro batch
  induction batch with
  | nil => intro t; rfl
  | cons i rest ih =>
    intro t
    calc ((i :: rest).foldl (Tournament.processMatch o) t).state.total_rounds
        = (rest.foldl (Tournament.processMatch o) (t.processMatch o i)).state.total_rounds := rfl
      _ = (t.processMatch o i).state.total_rounds := ih _
      _ = t.state.total_rounds := processMatch_total_rounds o t i

theorem runBody_total_rounds (o : Nat → Option String) (sh : List String → List String)
    (bs : Nat) (t : Tournament) :
    (t.runBody o sh bs).state.total_rounds = t.state.total_rounds := by
  unfold Tournament.runBody
  dsimp only
  split
  · split
    · exact advance_round_total_rounds sh t
    · exact (foldl_processMatch_total_rounds o _ _).trans (advance_round_total_rounds sh t)
  · split
    · rfl
    · exact foldl_processMatch_total_rounds o _ _

theorem runLoop_total_rounds (o : Nat → Option String) (sh : List String → List String)
    (bs : Nat) :
    ∀ (fuel : Nat) (t : Tournament),
      (Tournament.runLoop o sh bs fuel t).state.total_rounds = t.state.total_rounds := by
  intro fuel
  induction fuel with
  | zero => intro t; rfl
  | succ fuel ih =>
    intro t
    unfold Tournament.runLoop
    split
    · rfl
    · exact (ih _).trans (runBody_total_rounds o sh bs t)

/-- Claim C7 — at initialization with `N >= 1` contestants the stored
    `total_rounds` equals `(N - 1).bit_length() = ceil(log2 N)`; it is set
    once there and never changed by match processing, round advancement or
    the run loop.  Concretely (identity shuffle): `N = 5` gives
    `total_rounds = 3`, `bracket_size = 2 ^ 3 = 8`, three byes (exactly the
    contestants handed a win at initialization) and one round-1 match, and
    `N = 8` gives `total_rounds = 3`, no byes and four round-1 matches. -/
theorem C7_total_rounds :
    (∀ (shuffle : List String → List String) (cs : List Contestant)
        (t : Tournament),
        initializeTournament shuffle cs = some t →
        (∀ l, (shuffle l).Perm l) →
        t.state.total_rounds = bitLength (cs.length - 1) ∧
        (1 ≤ cs.length → t.state.total_rounds = Nat.clog 2 cs.length)) ∧
    (∀ (o : Nat → Option String) (t : Tournament) (i : Nat),
        (t.processMatch o i).state.total_rounds = t.state.total_rounds) ∧
    (∀ (sh : List String → List String) (t : Tournament),
        (t.advance_round sh).state.total_rounds = t.state.total_rounds) ∧
    (∀ (o : Nat → Option String) (sh : List String → List String)
        (bs fuel : Nat) (t : Tournament),
        (Tournament.runLoop o sh bs fuel t).state.total_rounds =
          t.state.total_rounds) ∧
    ((initializeTournament id demoPool5).map (fun t =>
        (t.state.total_rounds, 2 ^ t.state.total_rounds,
         (t.contestants.filter fun c => c.wins != 0).length,
         t.matchList.length)) = some (3, 8, 3, 1)) ∧
    ((initializeTournament id demoPool8).map (fun t =>
        (t.state.total_rounds, 2 ^ t.state.total_rounds,
         (t.contestants.filter fun c => c.wins != 0).length,
         t.matchList.length)) = some (3, 8, 0, 4)) := by
  refine ⟨?_, processMatch_total_rounds, advance_round_total_rounds,
          ?_, by decide, by decide⟩
  · intro shuffle cs t hinit hsh
    unfold initializeTournament at hinit
    by_cases hc : cs.isEmpty
    · rw [if_pos hc] at hinit
      cases hinit
    · rw [if_neg hc] at hinit
      have ht := Option.some.inj hinit
      subst ht
      have hlen : (shuffle (cs.map (·.id))).length = cs.length := by
        rw [(hsh (cs.map (·.id))).length_eq, List.length_map]
      constructor
      · rw [save_state_total_rounds]
        dsimp only
        rw [hlen]
      · intro hn
        rw [save_state_total_rounds]
        dsimp only
        rw [hlen]
        exact bitLength_pred_eq_clog cs.length hn
  · intro o sh bs fuel t
    exact runLoop_total_rounds o sh bs fuel t

/-- Witness for C7 at the five-image pool with the identity shuffle. -/
theorem C7_total_rounds_witness :
    ((initializeTournament id demoPool5).getD default).state.total_rounds =
      bitLength (demoPool5.length - 1) ∧
    (1 ≤ demoPool5.length →
      ((initializeTournament id demoPool5).getD default).state.total_rounds =
        Nat.clog 2 demoPool5.length) :=
  C7_total_rounds.1 id demoPool5 _ (by rfl) (fun l => List.Perm.refl l)

/-- Claim C10 — the engine is deterministic: two runs from equal states,
    with the oracle responses, the shuffle outcomes and the clock held
    fixed as explicit inputs, end in equal states (same winner, same match
    list, same contestant records). -/
theorem C10_determinism (oracle : Nat → Option String)
    (shuffle : List String → List String) (bs fuel : Nat)
    (s t : Tournament) (h : s = t) :
    (Tournament.runLoop oracle shuffle bs fuel s).state.winner_id =
      (Tournament.runLoop oracle shuffle bs fuel t).state.winner_id ∧
    (Tournament.runLoop oracle shuffle bs fuel s).matchList =
      (Tournament.runLoop oracle shuffle bs fuel t).matchList ∧
    (Tournament.runLoop oracle shuffle bs fuel s).contestants =
      (Tournament.runLoop oracle shuffle bs fuel t).contestants ∧
    Tournament.runLoop oracle shuffle bs fuel s =
      Tournament.runLoop oracle shuffle bs fuel t := by
  subst h
  exact ⟨rfl, rfl, rfl, rfl⟩

/-- Witness for C10 on the concrete two-image tournament. -/
theorem C10_determinism_witness :
    Tournament.runLoop (fun _ => some "A") id 10 5 demoInit =
      Tournament.runLoop (fun _ => some "A") id 10 5 demoInit :=
  (C10_determinism (fun _ => some "A") id 10 5 demoInit demoInit rfl).2.2.2

/-! ## Persistence round trip (C9) -/

/-- Counterexample to claim C9 as stated: a state document in the
    documented layout carrying one unknown future field
    (`schema_version`) is rejected by `TournamentState.load` — Python
    `cls(**data)` raises `TypeError` on the unexpected keyword — so the
    document is not round-tripped (and unknown fields are not
    preserved). -/
theorem C9_unknown_field_rejected :
    StateDoc.load demoDocExtra = none ∧
    ∀ st : StateDoc, StateDoc.load demoDocExtra ≠ some st := by
  refine ⟨rfl, ?_⟩
  intro st h
  rw [show StateDoc.load demoDocExtra = none from rfl] at h
  cases h

/-- Claim C9 (amended) — for every JSON state document whose keys are
    exactly the seven documented fields (in the documented order), loading
    and saving yields the same document with only the `last_updated` value
    replaced by the write-time clock; documents with unknown extra fields
    fail to load instead of being preserved. -/
theorem C9_known_fields_roundtrip (d : List (String × JVal)) (clock : String)
    (h : d.map Prod.fst = knownStateKeys) :
    ∃ st, StateDoc.load d = some st ∧
      StateDoc.save clock st =
        d.map fun kv =>
          if kv.1 = "last_updated" then (kv.1, JVal.jstr clock) else kv := by
  cases d with
  | nil => simp [knownStateKeys] at h
  | cons a1 d =>
  cases d with
  | nil => simp [knownStateKeys] at h
  | cons a2 d =>
  cases d with
  | nil => simp [knownStateKeys] at h
  | cons a3 d =>
  cases d with
  | nil => simp [knownStateKeys] at h
  | cons a4 d =>
  cases d with
  | nil => simp [knownStateKeys] at h
  | cons a5 d =>
  cases d with
  | nil => simp [knownStateKeys] at h
  | cons a6 d =>
  cases d with
  | nil => simp [knownStateKeys] at h
  | cons a7 d =>
  cases d with
  | cons a8 d => simp [knownStateKeys] at h
  | nil =>
  obtain ⟨k1, v1⟩ := a1
  obtain ⟨k2, v2⟩ := a2
  obtain ⟨k3, v3⟩ := a3
  obtain ⟨k4, v4⟩ := a4
  obtain ⟨k5, v5⟩ := a5
  obtain ⟨k6, v6⟩ := a6
  obtain ⟨k7, v7⟩ := a7
  simp only [List.map_cons, List.map_nil, knownStateKeys, List.cons.injEq,
    and_true] at h
  obtain ⟨h1, h2, h3, h4, h5, h6, h7⟩ := h
  subst h1; subst h2; subst h3; subst h4; subst h5; subst h6; subst h7
  exact ⟨_, rfl, rfl⟩

/-- Witness for C9 (amended) at a concrete seven-field document. -/
theorem C9_known_fields_roundtrip_witness :
    ∃ st, StateDoc.load (demoDocExtra.take 7) = some st ∧
      StateDoc.save "t1" st =
        (demoDocExtra.take 7).map fun kv =>
          if kv.1 = "last_updated" then (kv.1, JVal.jstr "t1") else kv :=
  C9_known_fields_roundtrip (demoDocExtra.take 7) "t1" (by rfl)

/-! ## Contestant registry (C6) -/

theorem mem_dictInsert {cs : List Contestant} {d c : Contestant}
    (h : c ∈ dictInsert cs d) : c ∈ cs ∨ c = d := by
  unfold dictInsert at h
  split at h
  · rcases List.mem_map.1 h with ⟨old, ho, heq⟩
    by_cases hid : old.id = d.id
    · right; rw [← heq, if_pos hid]
    · left; rw [← heq, if_neg hid]; exact ho
  · rcases List.mem_append.1 h with h | h
    · exact Or.inl h
    · exact Or.inr (List.mem_singleton.1 h)

theorem dictInsert_ids_nodup {cs : List Contestant} {d : Contestant}
    (h : (cs.map (·.id)).Nodup) : ((dictInsert cs d).map (·.id)).Nodup := by
  unfold dictInsert
  split
  · have heq : (cs.map fun old => if old.id = d.id then d else old).map (·.id) =
        cs.map (·.id) := by
      rw [List.map_map]
      refine List.map_congr_left ?_
      intro c _
      by_cases hid : c.id = d.id
      · simp [Function.comp, hid]
      · simp [Function.comp, hid]
    rw [heq]; exact h
  · rename_i hany
    have hnotin : d.id ∉ cs.map (·.id) := by
      intro hmem
      rcases List.mem_map.1 hmem with ⟨c, hc, hid⟩
      exact hany (List.any_eq_true.2 ⟨c, hc, by simp [hid]⟩)
    rw [List.map_append]
    exact List.nodup_append.2 ⟨h, List.nodup_singleton _,
      List.disjoint_singleton.2 hnotin⟩

theorem dictInsert_id_present {cs : List Contestant} {d : Contestant} {x : String}
    (h : ∃ c ∈ cs, c.id = x) : ∃ c ∈ dictInsert cs d, c.id = x := by
  obtain ⟨c, hc, hid⟩ := h
  unfold dictInsert
  split
  · by_cases hcd : c.id = d.id
    · exact ⟨d, List.mem_map.2 ⟨c, hc, by rw [if_pos hcd]⟩, by rw [← hcd, hid]⟩
    · exact ⟨c, List.mem_map.2 ⟨c, hc, by rw [if_neg hcd]⟩, hid⟩
  · exact ⟨c, List.mem_append_left _ hc, hid⟩

theorem dictInsert_self_present (cs : List Contestant) (d : Contestant) :
    ∃ c ∈ dictInsert cs d, c.id = d.id := by
  unfold dictInsert
  split
  · rename_i hany
    rcases List.any_eq_true.1 hany with ⟨c, hc, hcd⟩
    have hcd2 : c.id = d.id := by simpa using hcd
    exact ⟨d, List.mem_map.2 ⟨c, hc, by rw [if_pos hcd2]⟩, rfl⟩
  · exact ⟨d, List.mem_append_right _ (List.mem_singleton.2 rfl), rfl⟩

theorem foldl_dictInsert_props (hash : List Nat → String) (P : Contestant → Prop) :
    ∀ (items : List ImageItem) (acc : List Contestant),
      (∀ c ∈ acc, P c) → (∀ it ∈ items, P (mkContestant hash it)) →
      ∀ c ∈ items.foldl (fun a it => dictInsert a (mkContestant hash it)) acc, P c := by
  intro items
  induction items with
  | nil => intro acc hacc _ c hc; exact hacc c hc
  | cons it rest ih =>
    intro acc hacc hitems c hc
    refine ih (dictInsert acc (mkContestant hash it)) ?_
      (fun j hj => hitems j (List.mem_cons_of_mem _ hj)) c hc
    intro c2 hc2
    rcases mem_dictInsert hc2 with h | rfl
    · exact hacc c2 h
    · exact hitems it (List.mem_cons_self _ _)

theorem foldl_dictInsert_nodup (hash : List Nat → String) :
    ∀ (items : List ImageItem) (acc : List Contestant),
      (acc.map (·.id)).Nodup →
      ((items.foldl (fun a it => dictInsert a (mkContestant hash it)) acc).map
        (·.id)).Nodup := by
  intro items
  induction items with
  | nil => intro acc h; exact h
  | cons it rest ih =>
    intro acc h
    exact ih _ (dictInsert_ids_nodup h)

theorem foldl_dictInsert_present (hash : List Nat → String) :
    ∀ (items : List ImageItem) (acc : List Contestant) (x : String),
      (∃ c ∈ acc, c.id = x) →
      ∃ c ∈ items.foldl (fun a it => dictInsert a (mkContestant hash it)) acc,
        c.id = x := by
  intro items
  induction items with
  | nil => intro acc x h; exact h
  | cons it rest ih =>
    intro acc x h
    exact ih _ x (dictInsert_id_present h)

theorem foldl_dictInsert_covers (hash : List Nat → String) :
    ∀ (items : List ImageItem) (acc : List Contestant) (it : ImageItem),
      it ∈ items →
      ∃ c ∈ items.foldl (fun a j => dictInsert a (mkContestant hash j)) acc,
        c.id = "img_" ++ hash it.content := by
  intro items
  induction items with
  | nil => intro acc it h; cases h
  | cons j rest ih =>
    intro acc it hit
    rcases List.mem_cons.1 hit with rfl | h
    · exact foldl_dictInsert_present hash rest _ _
        (dictInsert_self_present acc (mkContestant hash it))
    · exact ih _ it h

/-- Counterexample to claim C6 as stated: running registration over a
    loaded state that already has a contestant, with an input item whose
    content-hash identity (`img_bbb`) does not occur in the loaded state,
    adds nothing — `_load_state` resumes from the stored contestants and
    never runs discovery — while the claim requires a fresh `Contestant`
    with that identity to be added. -/
theorem C6_resume_skips_new_items :
    ("img_" ++ demoHash demoNewItem.content) = "img_bbb" ∧
    (∀ kv ∈ [("img_aaa", demoSavedC)], (kv : String × Contestant).2.id ≠ "img_bbb") ∧
    ¬ ∃ c ∈ load_contestants [("img_aaa", demoSavedC)] demoHash [demoNewItem],
        c.id = "img_bbb" := by
  refine ⟨rfl, by decide, ?_⟩
  intro h
  rcases h with ⟨c, hc, hid⟩
  rw [show load_contestants [("img_aaa", demoSavedC)] demoHash [demoNewItem] =
      [demoSavedC] from rfl] at hc
  rw [List.mem_singleton.1 hc] at hid
  exact absurd hid (by decide)

/-- Claim C6 (amended) — when the loaded state already has contestants,
    registration returns them verbatim and no input item is registered;
    when the loaded state is empty, every input item is registered as a
    fresh `Contestant` (eliminated = false, wins = losses = 0), identical
    content hashes collapse onto one contestant id (a later duplicate
    overwrites the earlier record rather than duplicating it, so ids stay
    distinct), and every item's identity occurs in the result. -/
theorem C6_registration (saved : List (String × Contestant))
    (hash : List Nat → String) (items : List ImageItem) :
    (saved ≠ [] → load_contestants saved hash items = saved.map (·.2)) ∧
    (saved = [] → load_contestants saved hash items = discover_images hash items) ∧
    (∀ c ∈ discover_images hash items,
        c.eliminated = false ∧ c.wins = 0 ∧ c.losses = 0 ∧
        ∃ it ∈ items, c = mkContestant hash it) ∧
    ((discover_images hash items).map (·.id)).Nodup ∧
    (∀ it ∈ items, ∃ c ∈ discover_images hash items,
        c.id = "img_" ++ hash it.content) := by
  refine ⟨?_, ?_, ?_, ?_, ?_⟩
  · intro hne
    unfold load_contestants
    rw [if_neg (by simpa [List.isEmpty_iff] using hne)]
  · intro he
    subst he
    rfl
  · intro c hc
    refine foldl_dictInsert_props hash
      (fun c => c.eliminated = false ∧ c.wins = 0 ∧ c.losses = 0 ∧
        ∃ it ∈ items, c = mkContestant hash it) items [] ?_ ?_ c hc
    · intro c2 hc2; cases hc2
    · intro it hit
      exact ⟨rfl, rfl, rfl, it, hit, rfl⟩
  · exact foldl_dictInsert_nodup hash items [] (by simp)
  · intro it hit
    exact foldl_dictInsert_covers hash items [] it hit

/-- Witness for C6 (amended): on a non-empty loaded state the stored
    contestants are returned verbatim. -/
theorem C6_registration_witness :
    load_contestants [("img_aaa", demoSavedC)] demoHash [demoNewItem] =
      [("img_aaa", demoSavedC)].map (·.2) :=
  (C6_registration [("img_aaa", demoSavedC)] demoHash [demoNewItem]).1 (by decide)

/-! ## Checkpointing (C2) -/

theorem foldl_processMatch_current_round (o : Nat → Option String) :
    ∀ (batch : List Nat) (t : Tournament),
      (batch.foldl (Tournament.processMatch o) t).state.current_round =
        t.state.current_round := by
  intro batch
  induction batch with
  | nil => intro t; rfl
  | cons i rest ih =>
    intro t
    exact (ih _).trans (processMatch_current_round o t i)

/-- Counterexample to claim C2 as stated: a failed match-processing
    attempt (the oracle raises) triggers no state write at all — the
    `continue` in `Tournament.run` skips `_save_state()` — so the entire
    state, the write counter and the durable file included, is unchanged
    except for the consumed oracle call.  The claimed
    "failed attempt triggers an immediate state write" is false. -/
theorem C2_failed_attempt_no_write :
    0 ∈ demoInit.pendingIdxs ∧
    Tournament.processMatch (fun _ => none) demoInit 0 =
      { demoInit with oracleCalls := demoInit.oracleCalls + 1 } ∧
    (Tournament.processMatch (fun _ => none) demoInit 0).saveCount =
      demoInit.saveCount ∧
    (Tournament.processMatch (fun _ => none) demoInit 0).savedFile =
      demoInit.savedFile := by
  exact ⟨by decide, rfl, rfl, rfl⟩

/-- Claim C2 (amended) — the durable file always equals the serialized
    in-memory state: a successful match completion and a round advancement
    each perform exactly one immediate write and re-establish the
    equality; a failed attempt performs no write, but since it leaves the
    in-memory state unchanged the equality persists. -/
theorem C2_checkpoint_invariant (oracle : Nat → Option String)
    (shuffle : List String → List String) (t : Tournament) (i : Nat)
    (h : t.savedFile = some t.serialize) :
    (t.processMatch oracle i).savedFile =
      some (t.processMatch oracle i).serialize ∧
    (t.advance_round shuffle).savedFile =
      some (t.advance_round shuffle).serialize ∧
    (oracle t.oracleCalls ≠ none →
      (t.processMatch oracle i).saveCount = t.saveCount + 1) ∧
    (oracle t.oracleCalls = none →
      (t.processMatch oracle i).saveCount = t.saveCount) ∧
    (t.advance_round shuffle).saveCount = t.saveCount + 1 := by
  refine ⟨?_, ?_, ?_, ?_, ?_⟩
  · unfold Tournament.processMatch
    cases ho : oracle t.oracleCalls
    · exact h
    · exact save_state_savedFile _
  · unfold Tournament.advance_round
    dsimp only
    split
    · exact save_state_savedFile _
    · exact save_state_savedFile _
  · intro hne
    unfold Tournament.processMatch
    cases ho : oracle t.oracleCalls
    · exact absurd ho hne
    · rfl
  · intro hno
    unfold Tournament.processMatch
    rw [hno]
  · unfold Tournament.advance_round
    dsimp only
    split
    · rfl
    · rfl

/-- Witness for C2 (amended) on the freshly initialized two-image
    tournament (whose file was just written by initialization). -/
theorem C2_checkpoint_invariant_witness :
    (Tournament.processMatch (fun _ => some "A") demoInit 0).savedFile =
      some (Tournament.processMatch (fun _ => some "A") demoInit 0).serialize ∧
    (Tournament.advance_round id demoInit).savedFile =
      some (Tournament.advance_round id demoInit).serialize ∧
    ((fun _ => some "A") demoInit.oracleCalls ≠ none →
      (Tournament.processMatch (fun _ => some "A") demoInit 0).saveCount =
        demoInit.saveCount + 1) ∧
    ((fun _ => some "A") demoInit.oracleCalls = none →
      (Tournament.processMatch (fun _ => some "A") demoInit 0).saveCount =
        demoInit.saveCount) ∧
    (Tournament.advance_round id demoInit).saveCount = demoInit.saveCount + 1 :=
  C2_checkpoint_invariant (fun _ => some "A") id demoInit 0 (by decide)

/-! ## Failed attempts are retried (C3) -/

/-- Claim C3 — when the oracle raises while judging a match: the match
    record (winner, reasoning, completed) and every other component of
    the tournament except the consumed oracle call are unchanged; the
    batch loop simply continues with the remaining pending matches; every
    still-incomplete current-round match (the failed one included) is
    returned by `get_pending_matches`, both on the live state and after a
    restart from the serialized state; and the loop never advances the
    round while a pending match remains, so the failed match is retried,
    never skipped permanently. -/
theorem C3_failed_match_retried (oracle : Nat → Option String)
    (shuffle : List String → List String) (bs : Nat)
    (t : Tournament) (i : Nat) (rest : List Nat)
    (hfail : oracle t.oracleCalls = none) :
    Tournament.processMatch oracle t i =
      { t with oracleCalls := t.oracleCalls + 1 } ∧
    ((i :: rest).foldl (Tournament.processMatch oracle) t =
      rest.foldl (Tournament.processMatch oracle)
        { t with oracleCalls := t.oracleCalls + 1 }) ∧
    (∀ m ∈ t.matchList, m.round_num = t.state.current_round →
      m.completed = false →
      m ∈ Tournament.get_pending_matches
            { t with oracleCalls := t.oracleCalls + 1 }) ∧
    (Tournament.get_pending_matches (resumeTournament t.serialize) =
      t.get_pending_matches) ∧
    (t.get_pending_matches ≠ [] →
      (t.runBody oracle shuffle bs).state.current_round =
        t.state.current_round) := by
  have h1 : Tournament.processMatch oracle t i =
      { t with oracleCalls := t.oracleCalls + 1 } := by
    unfold Tournament.processMatch
    rw [hfail]
  refine ⟨h1, ?_, ?_, rfl, ?_⟩
  · rw [List.foldl_cons, h1]
  · intro m hm hr hc
    refine List.mem_filter.2 ⟨hm, ?_⟩
    simp [hr, hc]
  · intro hne
    unfold Tournament.runBody
    dsimp only
    split
    · rename_i hemp
      exact absurd (List.isEmpty_iff.1 hemp) hne
    · split
      · rfl
      · exact foldl_processMatch_current_round oracle _ t

/-- Witness for C3 on the concrete two-image tournament with an oracle
    that always raises. -/
theorem C3_failed_match_retried_witness :
    Tournament.processMatch (fun _ => none) demoInit 0 =
      { demoInit with oracleCalls := demoInit.oracleCalls + 1 } :=
  (C3_failed_match_retried (fun _ => none) id 10 demoInit 0 [] rfl).1

/-! ## The elimination loop as a pointwise map -/

theorem elimUpd_id (cur : Nat) (m : Match) (c : Contestant) :
    (elimUpd cur m c).id = c.id := by
  unfold elimUpd
  split
  · cases hw : m.winner with
    | none =>
      dsimp only
      split <;> rfl
    | some w =>
      dsimp only
      rw [apply_ite Contestant.id]
      dsimp only
      rw [ite_self]
      split <;> rfl
  · rfl

theorem elimUpd_elim_mono (cur : Nat) (m : Match) (c : Contestant)
    (h : c.eliminated = true) : (elimUpd cur m c).eliminated = true := by
  unfold elimUpd
  split
  · cases hw : m.winner with
    | none =>
      dsimp only
      split
      · rfl
      · exact h
    | some w =>
      dsimp only
      rw [apply_ite Contestant.eliminated]
      dsimp only
      rw [ite_self]
      split
      · rfl
      · exact h
  · exact h

theorem elimUpd_elim_of_not_loser (cur : Nat) (m : Match) (c : Contestant)
    (h : loserOf m ≠ c.id) : (elimUpd cur m c).eliminated = c.eliminated := by
  unfold elimUpd
  split
  · cases hw : m.winner with
    | none =>
      dsimp only
      rw [if_neg (fun h2 => h h2.symm)]
    | some w =>
      dsimp only
      rw [apply_ite Contestant.eliminated]
      dsimp only
      rw [ite_self]
      rw [if_neg (fun h2 => h h2.symm)]
  · rfl

theorem elimUpd_sets_loser (cur : Nat) (m : Match) (c : Contestant)
    (hcond : (m.round_num == cur && m.completed) = true)
    (hid : c.id = loserOf m) : (elimUpd cur m c).eliminated = true := by
  unfold elimUpd
  rw [if_pos hcond]
  cases hw : m.winner with
  | none =>
    dsimp only
    rw [if_pos hid]
  | some w =>
    dsimp only
    rw [apply_ite Contestant.eliminated]
    dsimp only
    rw [ite_self]
    rw [if_pos hid]

theorem combElim_id (cur : Nat) :
    ∀ (ms : List Match) (c : Contestant), (combElim cur ms c).id = c.id := by
  intro ms
  induction ms with
  | nil => intro c; rfl
  | cons m rest ih =>
    intro c
    calc (combElim cur (m :: rest) c).id
        = (combElim cur rest (elimUpd cur m c)).id := rfl
      _ = (elimUpd cur m c).id := ih _
      _ = c.id := elimUpd_id cur m c

theorem combElim_elim_mono (cur : Nat) :
    ∀ (ms : List Match) (c : Contestant), c.eliminated = true →
      (combElim cur ms c).eliminated = true := by
  intro ms
  induction ms with
  | nil => intro c h; exact h
  | cons m rest ih =>
    intro c h
    exact ih _ (elimUpd_elim_mono cur m c h)

theorem combElim_elim_of_no_loss (cur : Nat) :
    ∀ (ms : List Match) (c : Contestant),
      (∀ m ∈ ms, (m.round_num == cur && m.completed) = true → loserOf m ≠ c.id) →
      (combElim cur ms c).eliminated = c.eliminated := by
  intro ms
  induction ms with
  | nil => intro c _; rfl
  | cons m rest ih =>
    intro c h
    have hm : (elimUpd cur m c).eliminated = c.eliminated := by
      by_cases hcond : (m.round_num == cur && m.completed) = true
      · exact elimUpd_elim_of_not_loser cur m c (h m (List.mem_cons_self _ _) hcond)
      · unfold elimUpd
        rw [if_neg hcond]
    calc (combElim cur (m :: rest) c).eliminated
        = (combElim cur rest (elimUpd cur m c)).eliminated := rfl
      _ = (elimUpd cur m c).eliminated := by
          refine ih _ ?_
          intro m2 hm2 hcond2
          rw [elimUpd_id]
          exact h m2 (List.mem_cons_of_mem _ hm2) hcond2
      _ = c.eliminated := hm

theorem combElim_loser_elim (cur : Nat) :
    ∀ (ms : List Match) (c : Contestant) (m0 : Match), m0 ∈ ms →
      (m0.round_num == cur && m0.completed) = true → c.id = loserOf m0 →
      (combElim cur ms c).eliminated = true := by
  intro ms
  induction ms with
  | nil => intro c m0 h; intro _ _; cases h
  | cons m rest ih =>
    intro c m0 hm0 hcond hid
    rcases List.mem_cons.1 hm0 with rfl | hm0
    · exact combElim_elim_mono cur rest _ (elimUpd_sets_loser cur m0 c hcond hid)
    · exact ih _ m0 hm0 hcond (by rw [elimUpd_id]; exact hid)

theorem elimStep_eq_map (cur : Nat) (m : Match) (acc : List Contestant) :
    elimStep cur acc m = acc.map (elimUpd cur m) := by
  unfold elimStep elimUpd updC
  by_cases h1 : (m.round_num == cur && m.completed) = true
  · rw [if_pos h1]
    cases hw : m.winner with
    | none =>
      dsimp only
      refine List.map_congr_left ?_
      intro c _
      rw [if_pos h1]
    | some w =>
      dsimp only
      rw [List.map_map]
      refine List.map_congr_left ?_
      intro c _
      dsimp only [Function.comp]
      rw [if_pos h1]
  · rw [if_neg h1]
    refine (Eq.trans (List.map_congr_left ?_) (List.map_id' acc)).symm
    intro c _
    dsimp only
    rw [if_neg h1]

theorem foldl_elimStep_eq_map (cur : Nat) :
    ∀ (ms : List Match) (acc : List Contestant),
      ms.foldl (elimStep cur) acc = acc.map (combElim cur ms) := by
  intro ms
  induction ms with
  | nil =>
    intro acc
    exact (List.map_id' acc).symm
  | cons m rest ih =>
    intro acc
    calc (m :: rest).foldl (elimStep cur) acc
        = rest.foldl (elimStep cur) (elimStep cur acc m) := rfl
      _ = rest.foldl (elimStep cur) (acc.map (elimUpd cur m)) := by
          rw [elimStep_eq_map]
      _ = (acc.map (elimUpd cur m)).map (combElim cur rest) := ih _
      _ = acc.map (combElim cur (m :: rest)) := by
          rw [List.map_map]
          rfl

/-! ## Live contestants and dict updates -/

theorem mem_liveIds {cs : List Contestant} {x : String} :
    x ∈ liveIds cs ↔ ∃ c ∈ cs, c.eliminated = false ∧ c.id = x := by
  unfold liveIds
  constructor
  · intro h
    rcases List.mem_map.1 h with ⟨c, hc, rfl⟩
    rcases List.mem_filter.1 hc with ⟨hc2, hel⟩
    exact ⟨c, hc2, by simpa using hel, rfl⟩
  · rintro ⟨c, hc, hel, rfl⟩
    exact List.mem_map.2 ⟨c, List.mem_filter.2 ⟨hc, by simp [hel]⟩, rfl⟩

theorem liveIds_map_of_preserve {g : Contestant → Contestant}
    (hid : ∀ c, (g c).id = c.id) (hel : ∀ c, (g c).eliminated = c.eliminated) :
    ∀ cs : List Contestant, liveIds (cs.map g) = liveIds cs := by
  intro cs
  induction cs with
  | nil => rfl
  | cons c rest ih =>
    have htail := ih
    unfold liveIds at htail ⊢
    rw [List.map_cons, List.filter_cons, List.filter_cons, hel c]
    cases hcel : c.eliminated
    · rw [if_pos (by rw [Bool.not_false]), if_pos (by rw [Bool.not_false])]
      rw [List.map_cons, List.map_cons, hid c]
      rw [htail]
    · rw [if_neg (by rw [Bool.not_true]; exact Bool.false_ne_true),
          if_neg (by rw [Bool.not_true]; exact Bool.false_ne_true)]
      exact htail

theorem updC_map_id (cs : List Contestant) (x : String)
    {f : Contestant → Contestant} (hf : ∀ c, (f c).id = c.id) :
    (updC cs x f).map (·.id) = cs.map (·.id) := by
  unfold updC
  rw [List.map_map]
  refine List.map_congr_left ?_
  intro c _
  dsimp only [Function.comp]
  split
  · exact hf c
  · rfl

theorem liveIds_updC_of_elim_preserve (cs : List Contestant) (x : String)
    {f : Contestant → Contestant} (hid : ∀ c, (f c).id = c.id)
    (hel : ∀ c, (f c).eliminated = c.eliminated) :
    liveIds (updC cs x f) = liveIds cs := by
  unfold updC
  refine liveIds_map_of_preserve ?_ ?_ cs
  · intro c
    dsimp only
    split
    · exact hid c
    · rfl
  · intro c
    dsimp only
    split
    · exact hel c
    · rfl

theorem elimApplied_map_id (t : Tournament) :
    (elimApplied t).map (·.id) = t.contestants.map (·.id) := by
  unfold elimApplied
  rw [List.map_map]
  exact List.map_congr_left (fun c _ => combElim_id _ _ c)

theorem liveIds_elimApplied_sub (t : Tournament) :
    ∀ x, x ∈ liveIds (elimApplied t) → x ∈ liveIds t.contestants := by
  intro x hx
  unfold elimApplied at hx
  rcases mem_liveIds.1 hx with ⟨c2, hc2, hel, hid⟩
  rcases List.mem_map.1 hc2 with ⟨c, hc, rfl⟩
  refine mem_liveIds.2 ⟨c, hc, ?_, ?_⟩
  · cases hce : c.eliminated
    · rfl
    · rw [combElim_elim_mono _ _ c hce] at hel
      cases hel
  · rw [← combElim_id t.state.current_round t.matchList c]
    exact hid

/-! ## Pairing loops -/

theorem evenPrefix_sublist : ∀ l : List String, (evenPrefix l).Sublist l := by
  intro l
  induction l using evenPrefix.induct with
  | case1 a b rest ih =>
    exact (ih.cons₂ b).cons₂ a
  | case2 l h =>
    cases l with
    | nil => exact List.Sublist.refl _
    | cons a rest =>
      cases rest with
      | nil => exact List.nil_sublist _
      | cons b rest2 => exact absurd rfl (h a b rest2)

theorem mkPairs_facts (r : Nat) :
    ∀ (k : Nat) (l : List String) (m : Match), m ∈ mkPairs r k l →
      m.round_num = r ∧ m.completed = false ∧ m.winner = none ∧
        m.contestant_a ∈ l ∧ m.contestant_b ∈ l := by
  intro k l
  induction k, l using mkPairs.induct r with
  | case1 k => intro m h; cases h
  | case2 k a => intro m h; cases h
  | case3 k a b rest ih =>
    intro m h
    rcases List.mem_cons.1 h with rfl | h2
    · exact ⟨rfl, rfl, rfl, List.mem_cons_self _ _,
        List.mem_cons_of_mem _ (List.mem_cons_self _ _)⟩
    · obtain ⟨h1, h2c, h3, h4, h5⟩ := ih m h2
      exact ⟨h1, h2c, h3,
        List.mem_cons_of_mem _ (List.mem_cons_of_mem _ h4),
        List.mem_cons_of_mem _ (List.mem_cons_of_mem _ h5)⟩

theorem mkPairs_parts_flat (r : Nat) :
    ∀ (k : Nat) (l : List String),
      (mkPairs r k l).flatMap partsOf = evenPrefix l := by
  intro k l
  induction k, l using mkPairs.induct r with
  | case1 k => rfl
  | case2 k a => rfl
  | case3 k a b rest ih =>
    show partsOf (mkMatch r k a b) ++ (mkPairs r (k + 1) rest).flatMap partsOf =
      a :: b :: evenPrefix rest
    rw [ih]
    rfl

theorem mkPairs_length (r : Nat) :
    ∀ (k : Nat) (l : List String), (mkPairs r k l).length = l.length / 2 := by
  intro k l
  induction k, l using mkPairs.induct r with
  | case1 k => rfl
  | case2 k a =>
    show (0 : Nat) = 1 / 2
    omega
  | case3 k a b rest ih =>
    show (mkPairs r (k + 1) rest).length + 1 = (rest.length + 1 + 1) / 2
    rw [ih]
    omega

theorem mkPairsBye_facts (r : Nat) :
    ∀ (k : Nat) (l : List String) (m : Match), m ∈ (mkPairsBye r k l).1 →
      m.round_num = r ∧ m.completed = false ∧ m.winner = none ∧
        m.contestant_a ∈ l ∧ m.contestant_b ∈ l := by
  intro k l
  induction k, l using mkPairsBye.induct r with
  | case1 k => intro m h; cases h
  | case2 k a => intro m h; cases h
  | case3 k a b rest ih =>
    intro m h
    rcases List.mem_cons.1 h with rfl | h2
    · exact ⟨rfl, rfl, rfl, List.mem_cons_self _ _,
        List.mem_cons_of_mem _ (List.mem_cons_self _ _)⟩
    · obtain ⟨h1, h2c, h3, h4, h5⟩ := ih m h2
      exact ⟨h1, h2c, h3,
        List.mem_cons_of_mem _ (List.mem_cons_of_mem _ h4),
        List.mem_cons_of_mem _ (List.mem_cons_of_mem _ h5)⟩

theorem mkPairsBye_parts_flat (r : Nat) :
    ∀ (k : Nat) (l : List String),
      ((mkPairsBye r k l).1).flatMap partsOf = evenPrefix l := by
  intro k l
  induction k, l using mkPairsBye.induct r with
  | case1 k => rfl
  | case2 k a => rfl
  | case3 k a b rest ih =>
    show partsOf (mkMatch r k a b) ++ ((mkPairsBye r (k + 1) rest).1).flatMap partsOf =
      a :: b :: evenPrefix rest
    rw [ih]
    rfl

theorem mkPairsBye_length (r : Nat) :
    ∀ (k : Nat) (l : List String),
      ((mkPairsBye r k l).1).length = l.length / 2 := by
  intro k l
  induction k, l using mkPairsBye.induct r with
  | case1 k => rfl
  | case2 k a =>
    show (0 : Nat) = 1 / 2
    omega
  | case3 k a b rest ih =>
    show ((mkPairsBye r (k + 1) rest).1).length + 1 = (rest.length + 1 + 1) / 2
    rw [ih]
    omega

/-! ## Case analysis of `advance_round` -/

theorem advance_round_cases (sh : List String → List String) (t : Tournament) :
    (∃ w, liveIds (elimApplied t) = [w] ∧
        t.advance_round sh = Tournament.save_state
          { t with contestants := elimApplied t
                 , state := { t.state with winner_id := some w } }) ∨
    ((liveIds (elimApplied t)).length ≠ 1 ∧
      ∃ g : Contestant → Contestant,
        (∀ c, (g c).id = c.id) ∧ (∀ c, (g c).eliminated = c.eliminated) ∧
        t.advance_round sh = Tournament.save_state
          { t with contestants := (elimApplied t).map g
                 , matchList := t.matchList ++
                     (mkPairsBye (t.state.current_round + 1) 0
                       (sh (liveIds (elimApplied t)))).1
                 , state := { t.state with
                     current_round := t.state.current_round + 1 } }) := by
  unfold Tournament.advance_round
  dsimp only
  rw [foldl_elimStep_eq_map]
  rw [show t.contestants.map (combElim t.state.current_round t.matchList) =
      elimApplied t from rfl]
  by_cases hone : ((liveIds (elimApplied t)).length == 1) = true
  · rw [if_pos hone]
    have hlen : (liveIds (elimApplied t)).length = 1 := beq_iff_eq.mp hone
    rcases List.length_eq_one.1 hlen with ⟨w, hw⟩
    left
    refine ⟨w, hw, ?_⟩
    rw [hw]
    rfl
  · rw [if_neg hone]
    right
    refine ⟨fun h => hone (beq_iff_eq.mpr h), ?_⟩
    cases hb : (mkPairsBye (t.state.current_round + 1) 0
        (sh (liveIds (elimApplied t)))).2 with
    | none =>
      refine ⟨fun c => c, fun c => rfl, fun c => rfl, ?_⟩
      rw [List.map_id']
    | some x =>
      exact ⟨fun c => if c.id = x then { c with wins := c.wins + 1 } else c,
        fun c => by dsimp only; split <;> rfl,
        fun c => by dsimp only; split <;> rfl, rfl⟩

/-! ## Elimination monotonicity (C8) -/

theorem all_elim_elimApplied (t : Tournament) (cid : String)
    (h : ∀ c ∈ t.contestants, c.id = cid → c.eliminated = true) :
    ∀ c ∈ elimApplied t, c.id = cid → c.eliminated = true := by
  intro c hc hcid
  unfold elimApplied at hc
  rcases List.mem_map.1 hc with ⟨c0, hc0, rfl⟩
  refine combElim_elim_mono _ _ c0 (h c0 hc0 ?_)
  rw [← combElim_id t.state.current_round t.matchList c0]
  exact hcid

theorem all_elim_map_g {g : Contestant → Contestant}
    (hgid : ∀ c, (g c).id = c.id) (hgel : ∀ c, (g c).eliminated = c.eliminated)
    {cs : List Contestant} {cid : String}
    (h : ∀ c ∈ cs, c.id = cid → c.eliminated = true) :
    ∀ c ∈ cs.map g, c.id = cid → c.eliminated = true := by
  intro c hc hcid
  rcases List.mem_map.1 hc with ⟨c0, hc0, rfl⟩
  rw [hgel c0]
  exact h c0 hc0 (by rw [← hgid c0]; exact hcid)

theorem loser_elim_elimApplied (t : Tournament) (m : Match)
    (hm : m ∈ t.matchList) (hr : m.round_num = t.state.current_round)
    (hcomp : m.completed = true) :
    ∀ c ∈ elimApplied t, c.id = loserOf m → c.eliminated = true := by
  intro c hc hcid
  unfold elimApplied at hc
  rcases List.mem_map.1 hc with ⟨c0, hc0, rfl⟩
  refine combElim_loser_elim _ _ c0 m hm ?_ ?_
  · rw [hr, hcomp]
    simp
  · rw [← combElim_id t.state.current_round t.matchList c0]
    exact hcid

/-- Counterexample to claim C8 as stated: after the single match of the
    two-image tournament is judged (a reachable, checkpointed state), the
    match is completed with winner `x`, so contestant `y` has lost a
    completed match — yet `y` still has `eliminated = false`, because
    elimination only happens later, in `advance_round`. -/
theorem C8_loser_not_yet_eliminated :
    ∃ m ∈ demoStep1.matchList, m.completed = true ∧ m.winner = some "x" ∧
      loserOf m = "y" ∧
      ∃ c ∈ demoStep1.contestants, c.id = "y" ∧ c.eliminated = false := by
  decide

/-- Claim C8 (amended) — eliminations are applied at round advancement,
    not at match completion: (1) once a contestant's record is eliminated,
    neither a match-processing attempt nor a round advancement ever resets
    it; (2) after `advance_round`, the loser of every completed
    current-round match is eliminated; (3) the matches `advance_round`
    creates for the next round pair only contestants that are live
    (not eliminated) at creation time, so an eliminated contestant never
    appears in a later-round match. -/
theorem C8_elimination_monotone (oracle : Nat → Option String)
    (shuffle : List String → List String) (t : Tournament) (i : Nat)
    (cid : String) (hsh : ∀ l, ((shuffle l).Perm l)) :
    ((∀ c ∈ t.contestants, c.id = cid → c.eliminated = true) →
      (∀ c ∈ (t.processMatch oracle i).contestants,
          c.id = cid → c.eliminated = true) ∧
      (∀ c ∈ (t.advance_round shuffle).contestants,
          c.id = cid → c.eliminated = true)) ∧
    (∀ m ∈ t.matchList, m.round_num = t.state.current_round →
      m.completed = true →
      ∀ c ∈ (t.advance_round shuffle).contestants, c.id = loserOf m →
        c.eliminated = true) ∧
    (∀ m ∈ (t.advance_round shuffle).matchList, m ∉ t.matchList →
      (∃ c ∈ (t.advance_round shuffle).contestants,
          c.id = m.contestant_a ∧ c.eliminated = false) ∧
      (∃ c ∈ (t.advance_round shuffle).contestants,
          c.id = m.contestant_b ∧ c.eliminated = false)) := by
  rcases advance_round_cases shuffle t with ⟨w, hw, heq⟩ |
    ⟨hne, g, hgid, hgel, heq⟩
  · -- winner branch: contestants are the eliminations, matches unchanged
    refine ⟨?_, ?_, ?_⟩
    · intro h
      refine ⟨?_, ?_⟩
      · rw [processMatch_contestants]
        exact h
      · rw [heq, save_state_contestants]
        exact all_elim_elimApplied t cid h
    · intro m hm hr hcomp
      rw [heq, save_state_contestants]
      exact loser_elim_elimApplied t m hm hr hcomp
    · intro m hm hnot
      rw [heq, save_state_matchList] at hm
      exact absurd hm hnot
  · refine ⟨?_, ?_, ?_⟩
    · intro h
      refine ⟨?_, ?_⟩
      · rw [processMatch_contestants]
        exact h
      · rw [heq, save_state_contestants]
        exact all_elim_map_g hgid hgel (all_elim_elimApplied t cid h)
    · intro m hm hr hcomp
      rw [heq, save_state_contestants]
      exact all_elim_map_g hgid hgel (loser_elim_elimApplied t m hm hr hcomp)
    · intro m hm hnot
      rw [heq, save_state_matchList] at hm
      have hm2 : m ∈ (mkPairsBye (t.state.current_round + 1) 0
          (shuffle (liveIds (elimApplied t)))).1 := by
        rcases List.mem_append.1 hm with h | h
        · exact absurd h hnot
        · exact h
      obtain ⟨_, _, _, ha, hb⟩ := mkPairsBye_facts _ _ _ m hm2
      have ha2 : m.contestant_a ∈ liveIds (elimApplied t) :=
        (hsh (liveIds (elimApplied t))).mem_iff.1 ha
      have hb2 : m.contestant_b ∈ liveIds (elimApplied t) :=
        (hsh (liveIds (elimApplied t))).mem_iff.1 hb
      rw [heq, save_state_contestants]
      constructor
      · rcases mem_liveIds.1 ha2 with ⟨c0, hc0, hel0, hid0⟩
        exact ⟨g c0, List.mem_map.2 ⟨c0, hc0, rfl⟩,
          by rw [hgid c0]; exact hid0, by rw [hgel c0]; exact hel0⟩
      · rcases mem_liveIds.1 hb2 with ⟨c0, hc0, hel0, hid0⟩
        exact ⟨g c0, List.mem_map.2 ⟨c0, hc0, rfl⟩,
          by rw [hgid c0]; exact hid0, by rw [hgel c0]; exact hel0⟩

/-- Witness for C8 (amended): advancing the judged two-image tournament
    eliminates the loser of its completed match. -/
theorem C8_elimination_monotone_witness :
    ((Tournament.advance_round id demoStep1).contestants.getD 1
      default).eliminated = true :=
  (C8_elimination_monotone (fun _ => some "A") id demoStep1 0 "y"
      (fun l => List.Perm.refl l)).2.1
    (demoStep1.matchList.getD 0 default) (by decide) (by decide) (by decide)
    ((Tournament.advance_round id demoStep1).contestants.getD 1 default)
    (by decide) (by decide)

/-! ## Counting helpers for the run loop -/

theorem set_getD_self {α : Type} : ∀ (l : List α) (i : Nat) (d : α),
    l.set i (l.getD i d) = l := by
  intro l
  induction l with
  | nil => intro i d; rfl
  | cons a rest ih =>
    intro i d
    cases i with
    | zero => rfl
    | succ i0 =>
      show a :: rest.set i0 (rest.getD i0 d) = a :: rest
      rw [ih]

theorem countP_set_eq {α : Type} (p : α → Bool) :
    ∀ (l : List α) (i : Nat) (x d : α), i < l.length →
      (l.set i x).countP p + (if p (l.getD i d) = true then 1 else 0) =
        l.countP p + (if p x = true then 1 else 0) := by
  intro l
  induction l with
  | nil => intro i x d h; cases h
  | cons a rest ih =>
    intro i x d h
    cases i with
    | zero =>
      show (x :: rest).countP p +
          (if p ((a :: rest).getD 0 d) = true then 1 else 0) =
        (a :: rest).countP p + (if p x = true then 1 else 0)
      have hg : (a :: rest).getD 0 d = a := rfl
      rw [hg, List.countP_cons, List.countP_cons]
      omega
    | succ i0 =>
      have h0 : i0 < rest.length := by
        simpa using Nat.lt_of_succ_lt_succ h
      show (a :: rest.set i0 x).countP p +
          (if p ((a :: rest).getD (i0 + 1) d) = true then 1 else 0) =
        (a :: rest).countP p + (if p x = true then 1 else 0)
      have hg : (a :: rest).getD (i0 + 1) d = rest.getD i0 d := rfl
      rw [hg, List.countP_cons, List.countP_cons]
      have := ih i0 x d h0
      omega

theorem countP_set_le {α : Type} (p : α → Bool) (l : List α) (i : Nat) (x : α)
    (hx : p x = false) : (l.set i x).countP p ≤ l.countP p := by
  by_cases h : i < l.length
  · have h2 := countP_set_eq p l i x x h
    by_cases hg : p (l.getD i x) = true
    · rw [if_pos hg, if_neg (by rw [hx]; exact Bool.false_ne_true)] at h2
      omega
    · rw [if_neg hg, if_neg (by rw [hx]; exact Bool.false_ne_true)] at h2
      omega
  · rw [List.set_eq_of_length_le (by omega)]

theorem countP_set_lt {α : Type} (p : α → Bool) (l : List α) (i : Nat) (x d : α)
    (hi : i < l.length) (hold : p (l.getD i d) = true) (hx : p x = false) :
    (l.set i x).countP p < l.countP p := by
  have h2 := countP_set_eq p l i x d hi
  rw [if_pos hold, if_neg (by rw [hx]; exact Bool.false_ne_true)] at h2
  omega

theorem two_mem_length {α : Type} {l : List α} {a b : α}
    (ha : a ∈ l) (hb : b ∈ l) (hab : a ≠ b) : 2 ≤ l.length := by
  cases l with
  | nil => cases ha
  | cons x rest =>
    cases rest with
    | nil =>
      rw [List.mem_singleton] at ha hb
      exact absurd (ha.trans hb.symm) hab
    | cons y rest2 =>
      show 2 ≤ rest2.length + 1 + 1
      omega

theorem subset_length_lt {l2 l : List String} {x : String}
    (hn : l2.Nodup) (hsub : l2 ⊆ l) (hx : x ∈ l) (hnx : x ∉ l2) :
    l2.length < l.length := by
  have hcons : (x :: l2).Nodup := List.nodup_cons.2 ⟨hnx, hn⟩
  have hsub2 : (x :: l2) ⊆ l := List.cons_subset.2 ⟨hx, hsub⟩
  have := (List.subperm_of_subset hcons hsub2).length_le
  simpa using this

theorem liveIds_sublist (cs : List Contestant) :
    (liveIds cs).Sublist (cs.map (·.id)) := by
  unfold liveIds
  exact (List.filter_sublist cs).map _

/-! ## Pending-match bookkeeping -/

theorem pendingFrom_length (cur : Nat) :
    ∀ (l : List Match) (i : Nat),
      (pendingFrom cur i l).length =
        l.countP (fun m => m.round_num == cur && !m.completed) := by
  intro l
  induction l with
  | nil => intro i; rfl
  | cons m rest ih =>
    intro i
    unfold pendingFrom
    rw [List.countP_cons]
    by_cases hm : (m.round_num == cur && !m.completed) = true
    · rw [if_pos hm, hm]
      show (pendingFrom cur (i + 1) rest).length + 1 = _ + 1
      rw [ih]
    · rw [if_neg hm]
      rw [ih]
      have : (if (m.round_num == cur && !m.completed) = true then 1 else 0) = 0 := by
        rw [if_neg hm]
      omega

theorem pendingFrom_mem (cur : Nat) :
    ∀ (l : List Match) (i j : Nat), j ∈ pendingFrom cur i l →
      ∃ k, k < l.length ∧ j = i + k ∧
        ((l.getD k default).round_num == cur &&
          !(l.getD k default).completed) = true := by
  intro l
  induction l with
  | nil => intro i j h; cases h
  | cons m rest ih =>
    intro i j h
    unfold pendingFrom at h
    by_cases hm : (m.round_num == cur && !m.completed) = true
    · rw [if_pos hm] at h
      rcases List.mem_cons.1 h with rfl | h2
      · exact ⟨0, by simp, by omega, hm⟩
      · obtain ⟨k, hk, hj, hp⟩ := ih (i + 1) j h2
        exact ⟨k + 1, by simpa using Nat.succ_lt_succ hk, by omega, hp⟩
    · rw [if_neg hm] at h
      obtain ⟨k, hk, hj, hp⟩ := ih (i + 1) j h
      exact ⟨k + 1, by simpa using Nat.succ_lt_succ hk, by omega, hp⟩

theorem pendingIdxs_length (t : Tournament) :
    t.pendingIdxs.length = pendCount t :=
  pendingFrom_length _ _ 0

theorem pendingIdxs_mem (t : Tournament) {j : Nat} (h : j ∈ t.pendingIdxs) :
    j < t.matchList.length ∧
      ((t.matchList.getD j default).round_num == t.state.current_round &&
        !(t.matchList.getD j default).completed) = true := by
  obtain ⟨k, hk, hj, hp⟩ := pendingFrom_mem _ _ 0 j h
  have hk2 : j = k := by omega
  subst hk2
  exact ⟨hk, hp⟩

theorem pend_eq_length (t : Tournament) :
    pendCount t = t.get_pending_matches.length := by
  unfold pendCount Tournament.get_pending_matches
  rw [List.countP_eq_length_filter]

theorem pend_le_cur (t : Tournament) :
    pendCount t ≤ (curMatches t).length := by
  unfold pendCount curMatches
  rw [← List.countP_eq_length_filter]
  refine List.countP_mono_left ?_
  intro m _ hm
  rw [Bool.and_eq_true] at hm
  exact hm.1

theorem live_le_orig {orig : List String} {t : Tournament}
    (h : t.contestants.map (·.id) = orig) : liveCount t ≤ orig.length := by
  have := (liveIds_sublist t.contestants).length_le
  rw [h] at this
  exact this

/-! ## Effects of one match-processing attempt -/

theorem processMatch_cases (o : Nat → Option String) (t : Tournament) (i : Nat) :
    (o t.oracleCalls = none ∧
      t.processMatch o i = { t with oracleCalls := t.oracleCalls + 1 }) ∨
    (∃ m2 : Match,
      m2.round_num = (t.matchList.getD i default).round_num ∧
      m2.contestant_a = (t.matchList.getD i default).contestant_a ∧
      m2.contestant_b = (t.matchList.getD i default).contestant_b ∧
      m2.completed = true ∧
      (m2.winner = some m2.contestant_a ∨ m2.winner = some m2.contestant_b) ∧
      t.processMatch o i = Tournament.save_state
        { t with matchList := t.matchList.set i m2
               , oracleCalls := t.oracleCalls + 1 }) := by
  unfold Tournament.processMatch
  cases ho : o t.oracleCalls with
  | none => exact Or.inl ⟨rfl, rfl⟩
  | some raw =>
    right
    refine ⟨{ t.matchList.getD i default with
        winner := some (match parseVerdict (pyStrip raw.toList) with
          | Verdict.a => (t.matchList.getD i default).contestant_a
          | Verdict.b => (t.matchList.getD i default).contestant_b)
      , reasoning := String.mk (pyStrip raw.toList)
      , completed := true }, rfl, rfl, rfl, rfl, ?_, rfl⟩
    cases hv : parseVerdict (pyStrip raw.toList) with
    | a => exact Or.inl rfl
    | b => exact Or.inr rfl

theorem processMatch_pend_le (o : Nat → Option String) (t : Tournament) (i : Nat) :
    pendCount (t.processMatch o i) ≤ pendCount t := by
  rcases processMatch_cases o t i with ⟨_, heq⟩ |
    ⟨m2, hr, ha, hb, hcomp, hwin, heq⟩
  · rw [heq]
    exact Nat.le_refl _
  · rw [heq]
    show (t.matchList.set i m2).countP
        (fun m => m.round_num == t.state.current_round && !m.completed) ≤
      t.matchList.countP
        (fun m => m.round_num == t.state.current_round && !m.completed)
    refine countP_set_le _ _ _ _ ?_
    rw [hcomp]
    simp

theorem processMatch_pend_lt (o : Nat → Option String) (t : Tournament) (i : Nat)
    (hmem : i ∈ t.pendingIdxs) (hsome : o t.oracleCalls ≠ none) :
    pendCount (t.processMatch o i) < pendCount t := by
  rcases processMatch_cases o t i with ⟨ho, _⟩ |
    ⟨m2, hr, ha, hb, hcomp, hwin, heq⟩
  · exact absurd ho hsome
  · obtain ⟨hi, hp⟩ := pendingIdxs_mem t hmem
    rw [heq]
    show (t.matchList.set i m2).countP
        (fun m => m.round_num == t.state.current_round && !m.completed) <
      t.matchList.countP
        (fun m => m.round_num == t.state.current_round && !m.completed)
    refine countP_set_lt _ _ _ _ default hi hp ?_
    rw [hcomp]
    simp

theorem processMatch_live (o : Nat → Option String) (t : Tournament) (i : Nat) :
    liveCount (t.processMatch o i) = liveCount t := by
  unfold liveCount
  rw [processMatch_contestants]

theorem foldl_processMatch_contestants (o : Nat → Option String) :
    ∀ (batch : List Nat) (t : Tournament),
      (batch.foldl (Tournament.processMatch o) t).contestants = t.contestants := by
  intro batch
  induction batch with
  | nil => intro t; rfl
  | cons i rest ih =>
    intro t
    exact (ih _).trans (processMatch_contestants o t i)

theorem foldl_processMatch_winner (o : Nat → Option String) :
    ∀ (batch : List Nat) (t : Tournament),
      (batch.foldl (Tournament.processMatch o) t).state.winner_id =
        t.state.winner_id := by
  intro batch
  induction batch with
  | nil => intro t; rfl
  | cons i rest ih =>
    intro t
    exact (ih _).trans (processMatch_winner_id o t i)

theorem foldl_processMatch_live (o : Nat → Option String)
    (batch : List Nat) (t : Tournament) :
    liveCount (batch.foldl (Tournament.processMatch o) t) = liveCount t := by
  unfold liveCount
  rw [foldl_processMatch_contestants]

theorem foldl_processMatch_pend_le (o : Nat → Option String) :
    ∀ (batch : List Nat) (t : Tournament),
      pendCount (batch.foldl (Tournament.processMatch o) t) ≤ pendCount t := by
  intro batch
  induction batch with
  | nil => intro t; exact Nat.le_refl _
  | cons i rest ih =>
    intro t
    exact Nat.le_trans (ih _) (processMatch_pend_le o t i)

/-! ## Invariant transport along projection-preserving steps -/

theorem countP_round_eq (ms : List Match) (cur : Nat) :
    ms.countP (fun m => m.round_num == cur) =
      (ms.map projM).countP (fun p => p.1 == cur) := by
  rw [List.countP_map]
  rfl

theorem parts_eq_of_map_projM (cur : Nat) :
    ∀ (ms1 ms2 : List Match), ms1.map projM = ms2.map projM →
      (ms1.filter (fun m => m.round_num == cur)).flatMap partsOf =
        (ms2.filter (fun m => m.round_num == cur)).flatMap partsOf := by
  intro ms1
  induction ms1 with
  | nil =>
    intro ms2 h
    rw [List.map_nil] at h
    rw [(List.map_eq_nil_iff).1 h.symm]
  | cons m rest ih =>
    intro ms2 h
    cases ms2 with
    | nil => rw [List.map_nil, List.map_cons] at h; cases h
    | cons b bs =>
      rw [List.map_cons, List.map_cons] at h
      injection h with h1 h2
      have hround : m.round_num = b.round_num := congrArg Prod.fst h1
      have hpa : m.contestant_a = b.contestant_a :=
        congrArg (fun p => p.2.1) h1
      have hpb : m.contestant_b = b.contestant_b :=
        congrArg (fun p => p.2.2) h1
      rw [List.filter_cons, List.filter_cons, hround]
      by_cases hc : (b.round_num == cur) = true
      · rw [if_pos hc, if_pos hc]
        rw [List.flatMap_cons, List.flatMap_cons]
        rw [ih bs h2]
        unfold partsOf
        rw [hpa, hpb]
      · rw [if_neg hc, if_neg hc]
        exact ih bs h2

theorem mem_map_projM {ms1 ms2 : List Match}
    (h : ms1.map projM = ms2.map projM) {m : Match} (hm : m ∈ ms1) :
    ∃ m0 ∈ ms2, m0.round_num = m.round_num ∧
      m0.contestant_a = m.contestant_a ∧ m0.contestant_b = m.contestant_b := by
  have : projM m ∈ ms2.map projM := by
    rw [← h]
    exact List.mem_map.2 ⟨m, hm, rfl⟩
  rcases List.mem_map.1 this with ⟨m0, hm0, he⟩
  exact ⟨m0, hm0, congrArg Prod.fst he, congrArg (fun p => p.2.1) he,
    congrArg (fun p => p.2.2) he⟩

/-- Transport the invariant along a step that keeps the contestants, the
    current round, the winner flag and every match's round/participants
    (only `winner` / `reasoning` / `completed` fields may change). -/
theorem inv_of_components (orig : List String) (t t2 : Tournament)
    (hc : t2.contestants = t.contestants)
    (hcur : t2.state.current_round = t.state.current_round)
    (hwin : t2.state.winner_id = t.state.winner_id)
    (hproj : t2.matchList.map projM = t.matchList.map projM)
    (hwinner : ∀ m ∈ curMatches t2, m.completed = true →
      m.winner = some m.contestant_a ∨ m.winner = some m.contestant_b)
    (h : Inv orig t) : Inv orig t2 := by
  have hlen : (curMatches t2).length = (curMatches t).length := by
    unfold curMatches
    rw [← List.countP_eq_length_filter, ← List.countP_eq_length_filter]
    rw [hcur, countP_round_eq, countP_round_eq, hproj]
  refine ⟨?_, ?_, ?_, ?_, ?_, hwinner, ?_, ?_, ?_⟩
  · rw [hc]; exact h.ids_nodup
  · rw [hc]; exact h.ids_orig
  · intro m hm
    obtain ⟨m0, hm0, hr, _, _⟩ := mem_map_projM hproj hm
    rw [hcur, ← hr]
    exact h.rounds_le m0 hm0
  · intro m hm
    rcases List.mem_filter.1 hm with ⟨hm1, hmr⟩
    obtain ⟨m0, hm0, hr, hpa, hpb⟩ := mem_map_projM hproj hm1
    have hm0cur : m0 ∈ curMatches t := by
      refine List.mem_filter.2 ⟨hm0, ?_⟩
      rw [hr, ← hcur]
      exact hmr
    have := h.cur_live m0 hm0cur
    rw [hc, ← hpa, ← hpb]
    exact this
  · unfold partsCur curMatches
    rw [parts_eq_of_map_projM t2.state.current_round t2.matchList t.matchList
      hproj, hcur]
    exact h.parts_nodup
  · unfold liveCount
    rw [hc]
    exact h.live_pos
  · intro hw hl
    rw [hlen]
    refine h.cur_exists ?_ ?_
    · rw [← hwin]; exact hw
    · unfold liveCount at hl ⊢
      rw [hc] at hl
      exact hl
  · rw [hlen]
    unfold liveCount
    rw [hc]
    exact h.cur_le_live

/-! ## Invariant preservation through the run loop -/

theorem inv_save_state {orig : List String} {x : Tournament} (h : Inv orig x) :
    Inv orig (Tournament.save_state x) :=
  ⟨h.ids_nodup, h.ids_orig, h.rounds_le, h.cur_live, h.parts_nodup,
   h.cur_winner, h.live_pos, h.cur_exists, h.cur_le_live⟩

theorem inv_processMatch (orig : List String) (o : Nat → Option String)
    (t : Tournament) (i : Nat) (h : Inv orig t) :
    Inv orig (t.processMatch o i) := by
  rcases processMatch_cases o t i with ⟨_, heq⟩ |
    ⟨m2, hr, ha, hb, hcomp, hwin, heq⟩
  · rw [heq]
    exact ⟨h.ids_nodup, h.ids_orig, h.rounds_le, h.cur_live, h.parts_nodup,
      h.cur_winner, h.live_pos, h.cur_exists, h.cur_le_live⟩
  · rw [heq]
    refine inv_save_state ?_
    by_cases hlen : i < t.matchList.length
    · refine inv_of_components orig t _ rfl rfl rfl ?_ ?_ h
      · show (t.matchList.set i m2).map projM = t.matchList.map projM
        rw [List.map_set]
        have hpm : projM m2 = projM (t.matchList.getD i default) := by
          unfold projM
          rw [hr, ha, hb]
        rw [hpm, ← List.getD_map t.matchList default projM, set_getD_self]
      · intro m hm hcm
        rcases List.mem_filter.1 hm with ⟨hm1, hmr⟩
        rcases List.mem_or_eq_of_mem_set hm1 with hold | rfl
        · refine h.cur_winner m ?_ hcm
          exact List.mem_filter.2 ⟨hold, hmr⟩
        · exact hwin
    · rw [List.set_eq_of_length_le (by omega)]
      exact ⟨h.ids_nodup, h.ids_orig, h.rounds_le, h.cur_live, h.parts_nodup,
        h.cur_winner, h.live_pos, h.cur_exists, h.cur_le_live⟩

theorem foldl_inv_processMatch (orig : List String) (o : Nat → Option String) :
    ∀ (batch : List Nat) (t : Tournament), Inv orig t →
      Inv orig (batch.foldl (Tournament.processMatch o) t) := by
  intro batch
  induction batch with
  | nil => intro t h; exact h
  | cons i rest ih =>
    intro t h
    exact ih _ (inv_processMatch orig o t i h)

theorem runLoop_of_winner (o : Nat → Option String)
    (sh : List String → List String) (bs : Nat) (fuel : Nat) (t : Tournament)
    (h : t.state.winner_id.isSome = true) :
    Tournament.runLoop o sh bs fuel t = t := by
  cases fuel with
  | zero => rfl
  | succ fuel =>
    unfold Tournament.runLoop
    rw [if_pos h]

/-! ## Round advancement: progress and invariant preservation -/

theorem pend_zero_completed {t : Tournament} (h : pendCount t = 0) :
    ∀ m ∈ t.matchList, (m.round_num == t.state.current_round) = true →
      m.completed = true := by
  intro m hm hr
  cases hc : m.completed with
  | true => rfl
  | false =>
    exfalso
    refine List.countP_eq_zero.1 h m hm ?_
    rw [hr, hc]
    rfl

theorem map_g_map_id {g : Contestant → Contestant}
    (hgid : ∀ c, (g c).id = c.id) (cs : List Contestant) :
    (cs.map g).map (·.id) = cs.map (·.id) := by
  rw [List.map_map]
  exact List.map_congr_left (fun c _ => hgid c)

theorem pair_distinct {orig : List String} {t : Tournament} (hInv : Inv orig t)
    {m : Match} (hm : m ∈ curMatches t) :
    m.contestant_a ≠ m.contestant_b := by
  have hpair := (List.nodup_flatMap.1 hInv.parts_nodup).1 m hm
  unfold partsOf at hpair
  have := (List.nodup_cons.1 hpair).1
  intro he
  exact this (by rw [he]; exact List.mem_singleton.2 rfl)

theorem loserOf_of_winner_a {m : Match} (hw : m.winner = some m.contestant_a)
    (hab : m.contestant_a ≠ m.contestant_b) : loserOf m = m.contestant_b := by
  unfold loserOf
  rw [hw]
  rw [if_neg ?_]
  rw [beq_eq_false_iff_ne.2 (fun hh => hab (Option.some.inj hh))]
  exact Bool.false_ne_true

theorem loserOf_of_winner_b {m : Match} (hw : m.winner = some m.contestant_b) :
    loserOf m = m.contestant_a := by
  unfold loserOf
  rw [hw, if_pos (beq_iff_eq.2 rfl)]

theorem loserOf_mem_parts (m : Match) : loserOf m ∈ partsOf m := by
  unfold loserOf partsOf
  split
  · exact List.mem_cons_self _ _
  · exact List.mem_cons_of_mem _ (List.mem_cons_self _ _)

theorem parts_live {orig : List String} {t : Tournament} (hInv : Inv orig t)
    {m : Match} (hm : m ∈ curMatches t) {x : String} (hx : x ∈ partsOf m) :
    x ∈ liveIds t.contestants := by
  unfold partsOf at hx
  rcases List.mem_cons.1 hx with rfl | hx2
  · exact (hInv.cur_live m hm).1
  · rw [List.mem_singleton.1 hx2]
    exact (hInv.cur_live m hm).2

theorem curMatches_empty_of_live_one {orig : List String} {t : Tournament}
    (hInv : Inv orig t) (h1 : liveCount t = 1) : curMatches t = [] := by
  cases hcm : curMatches t with
  | nil => rfl
  | cons m rest =>
    exfalso
    have hm : m ∈ curMatches t := by rw [hcm]; exact List.mem_cons_self _ _
    have ha := (hInv.cur_live m hm).1
    have hb := (hInv.cur_live m hm).2
    have hab := pair_distinct hInv hm
    have := two_mem_length ha hb hab
    unfold liveCount at h1
    omega

theorem no_cur_liveIds_eq {t : Tournament}
    (h : ∀ m ∈ t.matchList,
      (m.round_num == t.state.current_round && m.completed) = false) :
    liveIds (elimApplied t) = liveIds t.contestants := by
  unfold elimApplied
  refine liveIds_map_of_preserve (combElim_id _ _) ?_ t.contestants
  intro c
  refine combElim_elim_of_no_loss _ _ c ?_
  intro m hm hcond
  rw [h m hm] at hcond
  cases hcond

/-- The contestant-id side of the survivor argument: the stored winner of a
    completed current-round match is never the loser of any completed
    current-round match, hence survives the elimination loop. -/
theorem survivor_live {orig : List String} {t : Tournament} (hInv : Inv orig t)
    {m0 : Match} (hm0 : m0 ∈ curMatches t) {w0 : String}
    (hw0p : w0 ∈ partsOf m0) (hw0ne : loserOf m0 ≠ w0) :
    w0 ∈ liveIds (elimApplied t) := by
  have hw0live : w0 ∈ liveIds t.contestants := parts_live hInv hm0 hw0p
  have hno_loss : ∀ m ∈ t.matchList,
      (m.round_num == t.state.current_round && m.completed) = true →
      loserOf m ≠ w0 := by
    intro m hm hcond
    rw [Bool.and_eq_true] at hcond
    have hmcur : m ∈ curMatches t := List.mem_filter.2 ⟨hm, hcond.1⟩
    by_cases hmm : m = m0
    · subst hmm
      exact hw0ne
    · have hpw := (List.nodup_flatMap.1 hInv.parts_nodup).2
      have hsymm : Symmetric (List.Disjoint on partsOf) :=
        fun x y h => List.Disjoint.symm h
      have hdisj := List.Pairwise.forall hsymm hpw hmcur hm0 hmm
      intro he
      exact hdisj (loserOf_mem_parts m) (he ▸ hw0p)
  rcases mem_liveIds.1 hw0live with ⟨c0, hc0, hel0, hid0⟩
  unfold elimApplied
  refine mem_liveIds.2 ⟨combElim t.state.current_round t.matchList c0,
    List.mem_map.2 ⟨c0, hc0, rfl⟩, ?_, ?_⟩
  · rw [combElim_elim_of_no_loss _ _ c0 ?_]
    · exact hel0
    · intro m hm hcond
      rw [hid0]
      exact hno_loss m hm hcond
  · rw [combElim_id]
    exact hid0

/-- The loser of a completed current-round match does not survive the
    elimination loop, so when such a match exists the live set strictly
    shrinks. -/
theorem live_elim_lt {orig : List String} {t : Tournament} (hInv : Inv orig t)
    {m0 : Match} (hm0 : m0 ∈ curMatches t) (hcomp0 : m0.completed = true) :
    (liveIds (elimApplied t)).length < liveCount t := by
  have hm0m : m0 ∈ t.matchList := (List.mem_filter.1 hm0).1
  have hm0r : (m0.round_num == t.state.current_round) = true :=
    (List.mem_filter.1 hm0).2
  have hlos_live : loserOf m0 ∈ liveIds t.contestants :=
    parts_live hInv hm0 (loserOf_mem_parts m0)
  have hlos_out : loserOf m0 ∉ liveIds (elimApplied t) := by
    intro hmem
    unfold elimApplied at hmem
    rcases mem_liveIds.1 hmem with ⟨c2, hc2, hel, hid⟩
    rcases List.mem_map.1 hc2 with ⟨c0, hc0, rfl⟩
    have : (combElim t.state.current_round t.matchList c0).eliminated = true := by
      refine combElim_loser_elim _ _ c0 m0 hm0m ?_ ?_
      · rw [Bool.and_eq_true]
        exact ⟨hm0r, hcomp0⟩
      · rw [← combElim_id t.state.current_round t.matchList c0]
        exact hid
    rw [this] at hel
    cases hel
  have hnodup : (liveIds (elimApplied t)).Nodup := by
    refine (liveIds_sublist (elimApplied t)).nodup ?_
    rw [elimApplied_map_id, hInv.ids_orig]
    rw [← hInv.ids_orig]
    exact hInv.ids_nodup
  exact subset_length_lt hnodup (liveIds_elimApplied_sub t) hlos_live hlos_out

theorem advance_progress (shuffle : List String → List String)
    (hsh : ∀ l, ((shuffle l).Perm l)) (orig : List String) (t : Tournament)
    (hInv : Inv orig t) (hw : t.state.winner_id = none)
    (hpend : pendCount t = 0) :
    (∃ w, (t.advance_round shuffle).state.winner_id = some w ∧
        liveIds (t.advance_round shuffle).contestants = [w] ∧
        (t.advance_round shuffle).contestants.map (·.id) = orig) ∨
    ((t.advance_round shuffle).state.winner_id = none ∧
      Inv orig (t.advance_round shuffle) ∧
      liveCount (t.advance_round shuffle) < liveCount t) := by
  have hcompl := pend_zero_completed hpend
  rcases advance_round_cases shuffle t with ⟨w, hwl, heq⟩ |
    ⟨hne, g, hgid, hgel, heq⟩
  · left
    refine ⟨w, ?_, ?_, ?_⟩
    · rw [heq, save_state_winner_id]
    · rw [heq, save_state_contestants]
      exact hwl
    · rw [heq, save_state_contestants]
      show (elimApplied t).map (·.id) = orig
      rw [elimApplied_map_id]
      exact hInv.ids_orig
  · -- the live set is not a singleton after the eliminations
    have hlive2 : 2 ≤ liveCount t := by
      rcases Nat.lt_or_ge (liveCount t) 2 with hlt | hge
      · exfalso
        have h1 : liveCount t = 1 := by
          have := hInv.live_pos
          omega
        have hnocur := curMatches_empty_of_live_one hInv h1
        have hnone : ∀ m ∈ t.matchList,
            (m.round_num == t.state.current_round && m.completed) = false := by
          intro m hm
          have h2 := List.filter_eq_nil_iff.1 hnocur m hm
          cases hb : (m.round_num == t.state.current_round) with
          | true => exact absurd hb h2
          | false => rw [Bool.false_and]
        have := no_cur_liveIds_eq hnone
        rw [this] at hne
        unfold liveCount at h1
        exact hne h1
      · exact hge
    have hcur1 : 1 ≤ (curMatches t).length := hInv.cur_exists hw hlive2
    obtain ⟨m0, hm0⟩ := List.exists_mem_of_ne_nil (curMatches t) (by
      intro h0
      rw [h0] at hcur1
      exact absurd hcur1 (by decide))
    have hcomp0 : m0.completed = true :=
      hcompl m0 (List.mem_filter.1 hm0).1 (List.mem_filter.1 hm0).2
    have hdec := live_elim_lt hInv hm0 hcomp0
    -- the surviving winner shows the live set is non-empty
    have hsurv : ∃ w0, w0 ∈ liveIds (elimApplied t) := by
      have hab := pair_distinct hInv hm0
      rcases hInv.cur_winner m0 hm0 hcomp0 with hwa | hwb
      · refine ⟨m0.contestant_a, survivor_live hInv hm0
          (List.mem_cons_self _ _) ?_⟩
        rw [loserOf_of_winner_a hwa hab]
        exact fun he => hab he.symm
      · refine ⟨m0.contestant_b, survivor_live hInv hm0
          (List.mem_cons_of_mem _ (List.mem_singleton.2 rfl)) ?_⟩
        rw [loserOf_of_winner_b hwb]
        exact hab
    -- shared facts for the advanced state
    have hremnodup : (liveIds (elimApplied t)).Nodup := by
      refine (liveIds_sublist (elimApplied t)).nodup ?_
      rw [elimApplied_map_id]
      exact hInv.ids_nodup
    have hshperm := hsh (liveIds (elimApplied t))
    have hshnodup : (shuffle (liveIds (elimApplied t))).Nodup :=
      hshperm.symm.nodup hremnodup
    have hlivepres : liveIds ((elimApplied t).map g) = liveIds (elimApplied t) :=
      liveIds_map_of_preserve hgid hgel _
    have hold : t.matchList.filter
        (fun m => m.round_num == t.state.current_round + 1) = [] := by
      refine List.filter_eq_nil_iff.2 ?_
      intro m hm hcontra
      have hle := hInv.rounds_le m hm
      have := beq_iff_eq.1 hcontra
      omega
    have hnew : ((mkPairsBye (t.state.current_round + 1) 0
          (shuffle (liveIds (elimApplied t)))).1).filter
        (fun m => m.round_num == t.state.current_round + 1) =
        (mkPairsBye (t.state.current_round + 1) 0
          (shuffle (liveIds (elimApplied t)))).1 := by
      refine List.filter_eq_self.2 ?_
      intro m hm
      obtain ⟨hr, _, _, _, _⟩ := mkPairsBye_facts _ _ _ m hm
      rw [hr]
      exact beq_iff_eq.2 rfl
    have hflt : (t.matchList ++ (mkPairsBye (t.state.current_round + 1) 0
          (shuffle (liveIds (elimApplied t)))).1).filter
        (fun m => m.round_num == t.state.current_round + 1) =
        (mkPairsBye (t.state.current_round + 1) 0
          (shuffle (liveIds (elimApplied t)))).1 := by
      rw [List.filter_append, hold, hnew, List.nil_append]
    right
    refine ⟨?_, ?_, ?_⟩
    · rw [heq, save_state_winner_id]
      exact hw
    · rw [heq]
      refine inv_save_state ?_
      refine ⟨?_, ?_, ?_, ?_, ?_, ?_, ?_, ?_, ?_⟩
      · show (((elimApplied t).map g).map (·.id)).Nodup
        rw [map_g_map_id hgid, elimApplied_map_id]
        exact hInv.ids_nodup
      · show ((elimApplied t).map g).map (·.id) = orig
        rw [map_g_map_id hgid, elimApplied_map_id]
        exact hInv.ids_orig
      · intro m hm
        have hm2 : m ∈ t.matchList ++ (mkPairsBye (t.state.current_round + 1) 0
            (shuffle (liveIds (elimApplied t)))).1 := hm
        show m.round_num ≤ t.state.current_round + 1
        rcases List.mem_append.1 hm2 with h | h
        · have := hInv.rounds_le m h
          omega
        · obtain ⟨hr, _, _, _, _⟩ := mkPairsBye_facts _ _ _ m h
          omega
      · intro m hm
        have hm2 : m ∈ (t.matchList ++ (mkPairsBye (t.state.current_round + 1) 0
            (shuffle (liveIds (elimApplied t)))).1).filter
              (fun m => m.round_num == t.state.current_round + 1) := hm
        rw [hflt] at hm2
        obtain ⟨_, _, _, ha, hb⟩ := mkPairsBye_facts _ _ _ m hm2
        constructor
        · show m.contestant_a ∈ liveIds ((elimApplied t).map g)
          rw [hlivepres]
          exact hshperm.mem_iff.1 ha
        · show m.contestant_b ∈ liveIds ((elimApplied t).map g)
          rw [hlivepres]
          exact hshperm.mem_iff.1 hb
      · show (((t.matchList ++ (mkPairsBye (t.state.current_round + 1) 0
            (shuffle (liveIds (elimApplied t)))).1).filter
              (fun m => m.round_num == t.state.current_round + 1)).flatMap
                partsOf).Nodup
        rw [hflt, mkPairsBye_parts_flat]
        exact (evenPrefix_sublist _).nodup hshnodup
      · intro m hm hc
        have hm2 : m ∈ (t.matchList ++ (mkPairsBye (t.state.current_round + 1) 0
            (shuffle (liveIds (elimApplied t)))).1).filter
              (fun m => m.round_num == t.state.current_round + 1) := hm
        rw [hflt] at hm2
        obtain ⟨_, hcomp2, _, _, _⟩ := mkPairsBye_facts _ _ _ m hm2
        rw [hcomp2] at hc
        cases hc
      · show 1 ≤ (liveIds ((elimApplied t).map g)).length
        rw [hlivepres]
        obtain ⟨w0, hw0⟩ := hsurv
        exact List.length_pos_of_mem hw0
      · intro _ h2
        show 1 ≤ ((t.matchList ++ (mkPairsBye (t.state.current_round + 1) 0
            (shuffle (liveIds (elimApplied t)))).1).filter
              (fun m => m.round_num == t.state.current_round + 1)).length
        rw [hflt, mkPairsBye_length, hshperm.length_eq]
        have h22 : 2 ≤ (liveIds ((elimApplied t).map g)).length := h2
        rw [hlivepres] at h22
        omega
      · show ((t.matchList ++ (mkPairsBye (t.state.current_round + 1) 0
            (shuffle (liveIds (elimApplied t)))).1).filter
              (fun m => m.round_num == t.state.current_round + 1)).length ≤
          (liveIds ((elimApplied t).map g)).length
        rw [hflt, mkPairsBye_length, hshperm.length_eq, hlivepres]
        exact Nat.div_le_self _ _
    · rw [heq]
      show (liveIds ((elimApplied t).map g)).length < liveCount t
      rw [hlivepres]
      exact hdec


/-! ## Initialization establishes the invariant -/

theorem foldl_bye_map_id :
    ∀ (ids : List String) (acc : List Contestant),
      ((ids.foldl (fun acc cid => updC acc cid fun c => { c with wins := c.wins + 1 })
          acc).map (·.id)) = acc.map (·.id) := by
  intro ids
  induction ids with
  | nil => intro acc; rfl
  | cons i rest ih =>
    intro acc
    rw [List.foldl_cons, ih]
    exact updC_map_id acc i (fun c => rfl)

theorem foldl_bye_liveIds :
    ∀ (ids : List String) (acc : List Contestant),
      liveIds (ids.foldl (fun acc cid => updC acc cid fun c => { c with wins := c.wins + 1 })
        acc) = liveIds acc := by
  intro ids
  induction ids with
  | nil => intro acc; rfl
  | cons i rest ih =>
    intro acc
    rw [List.foldl_cons, ih]
    exact liveIds_updC_of_elim_preserve acc i (fun c => rfl) (fun c => rfl)

theorem liveIds_all_live (cs : List Contestant) (h : ∀ c ∈ cs, c.eliminated = false) :
    liveIds cs = cs.map (·.id) := by
  unfold liveIds
  have hf : cs.filter (fun c => !c.eliminated) = cs :=
    List.filter_eq_self.2 (fun c hc => by rw [h c hc]; rfl)
  rw [hf]

theorem bitLength_bounds (n : Nat) (h2 : 2 ≤ n) :
    n ≤ 2 ^ bitLength (n - 1) ∧ 2 ^ bitLength (n - 1) ≤ 2 * (n - 1) := by
  have hub : n - 1 < 2 ^ bitLength (n - 1) :=
    (bitLength_le_iff (n - 1) (bitLength (n - 1))).1 (Nat.le_refl _)
  have hR1 : 1 ≤ bitLength (n - 1) := by
    by_contra h0
    have h0a : bitLength (n - 1) ≤ 0 := by omega
    have h0b := (bitLength_le_iff (n - 1) 0).1 h0a
    rw [Nat.pow_zero] at h0b
    omega
  have hlow : 2 ^ (bitLength (n - 1) - 1) ≤ n - 1 := by
    by_contra h0
    have h0a : n - 1 < 2 ^ (bitLength (n - 1) - 1) := by omega
    have h0b := (bitLength_le_iff (n - 1) (bitLength (n - 1) - 1)).2 h0a
    omega
  refine ⟨by omega, ?_⟩
  calc 2 ^ bitLength (n - 1)
      = 2 ^ (bitLength (n - 1) - 1 + 1) := by
        congr 1
        omega
    _ = 2 ^ (bitLength (n - 1) - 1) * 2 := Nat.pow_succ 2 _
    _ ≤ (n - 1) * 2 := Nat.mul_le_mul_right 2 hlow
    _ = 2 * (n - 1) := Nat.mul_comm _ _

theorem inv_init_record (cs : List Contestant) (order : List String) (byes R : Nat)
    (cs1 : List Contestant)
    (hid1 : cs1.map (·.id) = cs.map (·.id))
    (hlv1 : liveIds cs1 = cs.map (·.id))
    (hperm : order.Perm (cs.map (·.id)))
    (hnd : (cs.map (·.id)).Nodup) (hne : cs ≠ [])
    (hbyes : 2 ≤ order.length → 2 ≤ order.length - byes) :
    Inv (cs.map (·.id))
      { contestants := cs1
      , matchList := mkPairs 1 0 (order.drop byes)
      , state := { total_rounds := R } } := by
  have hOnd : order.Nodup := hperm.symm.nodup hnd
  have hOlen : order.length = cs.length := hperm.length_eq.trans (List.length_map _ _)
  have hcont : ({ contestants := cs1, matchList := mkPairs 1 0 (order.drop byes), state := { total_rounds := R } } : Tournament).contestants = cs1 := rfl
  have hml : ({ contestants := cs1, matchList := mkPairs 1 0 (order.drop byes), state := { total_rounds := R } } : Tournament).matchList = mkPairs 1 0 (order.drop byes) := rfl
  have hcr : ({ contestants := cs1, matchList := mkPairs 1 0 (order.drop byes), state := { total_rounds := R } } : Tournament).state.current_round = 1 := rfl
  have hcurX : curMatches { contestants := cs1, matchList := mkPairs 1 0 (order.drop byes), state := { total_rounds := R } } = mkPairs 1 0 (order.drop byes) := by
    unfold curMatches
    rw [hml, hcr]
    refine List.filter_eq_self.2 ?_
    intro m hm
    show (m.round_num == 1) = true
    rw [(mkPairs_facts 1 0 _ m hm).1]
    rfl
  have hlc : liveCount { contestants := cs1, matchList := mkPairs 1 0 (order.drop byes), state := { total_rounds := R } } = cs.length := by
    unfold liveCount
    rw [hcont, hlv1, List.length_map]
  have hcl : (curMatches { contestants := cs1, matchList := mkPairs 1 0 (order.drop byes), state := { total_rounds := R } }).length = (order.length - byes) / 2 := by
    rw [hcurX, mkPairs_length, List.length_drop]
  refine ⟨?_, ?_, ?_, ?_, ?_, ?_, ?_, ?_, ?_⟩
  · rw [hcont, hid1]
    exact hnd
  · rw [hcont]
    exact hid1
  · rw [hml, hcr]
    intro m hm
    rw [(mkPairs_facts 1 0 _ m hm).1]
  · intro m hm
    rw [hcurX] at hm
    obtain ⟨_, _, _, ha, hb⟩ := mkPairs_facts 1 0 _ m hm
    rw [hcont, hlv1]
    exact ⟨hperm.subset (List.drop_subset byes order ha),
      hperm.subset (List.drop_subset byes order hb)⟩
  · unfold partsCur
    rw [hcurX, mkPairs_parts_flat]
    exact List.Nodup.sublist
      ((evenPrefix_sublist _).trans (List.drop_sublist _ _)) hOnd
  · intro m hm hc
    rw [hcurX] at hm
    have hcf := (mkPairs_facts 1 0 _ m hm).2.1
    rw [hcf] at hc
    cases hc
  · rw [hlc]
    have := List.length_pos.2 hne
    omega
  · intro _ h2l
    rw [hcl]
    rw [hlc] at h2l
    have h2N : 2 ≤ order.length := by omega
    have := hbyes h2N
    omega
  · rw [hcl, hlc]
    omega

theorem initialize_inv (shuffle : List String → List String)
    (hsh : ∀ l, ((shuffle l).Perm l)) (cs : List Contestant)
    (h1 : cs ≠ []) (h2 : (cs.map (·.id)).Nodup)
    (h3 : ∀ c ∈ cs, c.eliminated = false) :
    ∃ t0, initializeTournament shuffle cs = some t0 ∧
      Inv (cs.map (·.id)) t0 ∧ t0.state.winner_id = none := by
  have hemp : cs.isEmpty = false := List.isEmpty_eq_false.2 h1
  have hperm := hsh (cs.map (·.id))
  have hbyes : 2 ≤ (shuffle (cs.map (·.id))).length →
      2 ≤ (shuffle (cs.map (·.id))).length -
        (2 ^ bitLength ((shuffle (cs.map (·.id))).length - 1) -
          (shuffle (cs.map (·.id))).length) := by
    intro hN
    obtain ⟨ha, hb⟩ := bitLength_bounds (shuffle (cs.map (·.id))).length hN
    omega
  unfold initializeTournament
  rw [hemp, if_neg Bool.false_ne_true]
  refine ⟨_, rfl, ?_, rfl⟩
  exact inv_save_state (inv_init_record cs (shuffle (cs.map (·.id))) _ _ _
    (foldl_bye_map_id _ _) ((foldl_bye_liveIds _ _).trans (liveIds_all_live cs h3))
    hperm h2 h1 hbyes)


/-! ## The run loop reaches a winner -/

theorem runLoop_reaches_winner (oracle : Nat → Option String)
    (shuffle : List String → List String) (bs : Nat) (orig : List String)
    (hsh : ∀ l, ((shuffle l).Perm l)) (ho : ∀ n, (oracle n).isSome = true)
    (hbs : 0 < bs) :
    ∀ (fuel : Nat) (t : Tournament), Inv orig t → t.state.winner_id = none →
      liveCount t * (orig.length + 1) + pendCount t < fuel →
      ∃ w, (Tournament.runLoop oracle shuffle bs fuel t).state.winner_id = some w ∧
        liveIds (Tournament.runLoop oracle shuffle bs fuel t).contestants = [w] ∧
        (Tournament.runLoop oracle shuffle bs fuel t).contestants.map (·.id) = orig := by
  intro fuel
  induction fuel with
  | zero =>
    intro t _ _ hμ
    exact absurd hμ (Nat.not_lt_zero _)
  | succ fuel ih =>
    intro t hInv hw hμ
    have hstep : Tournament.runLoop oracle shuffle bs (fuel + 1) t =
        Tournament.runLoop oracle shuffle bs fuel (t.runBody oracle shuffle bs) := by
      conv_lhs => unfold Tournament.runLoop
      rw [hw, Option.isSome_none, if_neg Bool.false_ne_true]
    by_cases hp : pendCount t = 0
    · -- no pending match: the loop advances the round
      have hpe0 : t.get_pending_matches.isEmpty = true :=
        List.isEmpty_iff.2 (List.length_eq_zero.1 (by rw [← pend_eq_length]; exact hp))
      rcases advance_progress shuffle hsh orig t hInv hw hp with
        ⟨w, hw1, hl1, hi1⟩ | ⟨hw1, hInv1, hdec1⟩
      · -- the advanced round crowned a winner
        have hbody : t.runBody oracle shuffle bs = t.advance_round shuffle := by
          unfold Tournament.runBody
          dsimp only
          rw [hpe0, if_pos (Eq.refl true), hw1, if_pos (show (some w).isSome = true from rfl)]
        rw [hstep, hbody,
          runLoop_of_winner oracle shuffle bs fuel _ (by rw [hw1]; rfl)]
        exact ⟨w, hw1, hl1, hi1⟩
      · -- new round created, strictly fewer live contestants
        have hbody : t.runBody oracle shuffle bs =
            (((t.advance_round shuffle).pendingIdxs.take bs).foldl
              (Tournament.processMatch oracle) (t.advance_round shuffle)) := by
          unfold Tournament.runBody
          dsimp only
          rw [hpe0, if_pos (Eq.refl true), hw1, Option.isSome_none,
            if_neg Bool.false_ne_true]
        have hInv2 := foldl_inv_processMatch orig oracle
          ((t.advance_round shuffle).pendingIdxs.take bs) _ hInv1
        have hw2 : (((t.advance_round shuffle).pendingIdxs.take bs).foldl
            (Tournament.processMatch oracle) (t.advance_round shuffle)).state.winner_id
              = none := by
          rw [foldl_processMatch_winner]
          exact hw1
        have hμ2 : liveCount (((t.advance_round shuffle).pendingIdxs.take bs).foldl
              (Tournament.processMatch oracle) (t.advance_round shuffle))
                * (orig.length + 1) +
            pendCount (((t.advance_round shuffle).pendingIdxs.take bs).foldl
              (Tournament.processMatch oracle) (t.advance_round shuffle)) < fuel := by
          have hl2 : liveCount (((t.advance_round shuffle).pendingIdxs.take bs).foldl
              (Tournament.processMatch oracle) (t.advance_round shuffle)) =
                liveCount (t.advance_round shuffle) :=
            foldl_processMatch_live oracle _ _
          have hp2 : pendCount (((t.advance_round shuffle).pendingIdxs.take bs).foldl
              (Tournament.processMatch oracle) (t.advance_round shuffle)) ≤
                liveCount (t.advance_round shuffle) :=
            Nat.le_trans (foldl_processMatch_pend_le oracle _ _)
              (Nat.le_trans (pend_le_cur _) hInv1.cur_le_live)
          have hlK : liveCount (t.advance_round shuffle) ≤ orig.length :=
            live_le_orig hInv1.ids_orig
          have hA : liveCount (t.advance_round shuffle) * (orig.length + 1) +
              pendCount (((t.advance_round shuffle).pendingIdxs.take bs).foldl
                (Tournament.processMatch oracle) (t.advance_round shuffle)) <
              (liveCount (t.advance_round shuffle) + 1) * (orig.length + 1) := by
            rw [Nat.add_mul, Nat.one_mul]
            omega
          have hB : (liveCount (t.advance_round shuffle) + 1) * (orig.length + 1) ≤
              liveCount t * (orig.length + 1) :=
            Nat.mul_le_mul_right _ (by omega)
          rw [hl2]
          omega
        rw [hstep, hbody]
        exact ih _ hInv2 hw2 hμ2
    · -- at least one pending match: the batch completes its head
      have hpe0 : t.get_pending_matches.isEmpty = false := by
        rw [List.isEmpty_eq_false]
        intro h0
        apply hp
        rw [pend_eq_length, h0]
        rfl
      have hne2 : t.pendingIdxs ≠ [] := by
        intro h0
        apply hp
        rw [← pendingIdxs_length, h0]
        rfl
      obtain ⟨j, rest, hjr⟩ : ∃ j rest, t.pendingIdxs = j :: rest := by
        cases hc : t.pendingIdxs with
        | nil => exact absurd hc hne2
        | cons a l => exact ⟨a, l, rfl⟩
      have hjmem : j ∈ t.pendingIdxs := by
        rw [hjr]
        exact List.mem_cons_self _ _
      have hsome : oracle t.oracleCalls ≠ none := by
        intro h0
        have hx := ho t.oracleCalls
        rw [h0, Option.isSome_none] at hx
        exact Bool.false_ne_true hx
      cases bs with
      | zero => exact absurd hbs (Nat.lt_irrefl 0)
      | succ b =>
        have hbody : t.runBody oracle shuffle (b + 1) =
            ((rest.take b).foldl (Tournament.processMatch oracle)
              (t.processMatch oracle j)) := by
          unfold Tournament.runBody
          dsimp only
          rw [hpe0, if_neg Bool.false_ne_true, hw, Option.isSome_none,
            if_neg Bool.false_ne_true, hjr, List.take_succ_cons, List.foldl_cons]
        have hInv2 := foldl_inv_processMatch orig oracle (rest.take b) _
          (inv_processMatch orig oracle t j hInv)
        have hw2 : ((rest.take b).foldl (Tournament.processMatch oracle)
            (t.processMatch oracle j)).state.winner_id = none := by
          rw [foldl_processMatch_winner, processMatch_winner_id]
          exact hw
        have hμ2 : liveCount ((rest.take b).foldl (Tournament.processMatch oracle)
              (t.processMatch oracle j)) * (orig.length + 1) +
            pendCount ((rest.take b).foldl (Tournament.processMatch oracle)
              (t.processMatch oracle j)) < fuel := by
          have hl2 : liveCount ((rest.take b).foldl (Tournament.processMatch oracle)
              (t.processMatch oracle j)) = liveCount t := by
            rw [foldl_processMatch_live, processMatch_live]
          have hpd : pendCount ((rest.take b).foldl (Tournament.processMatch oracle)
              (t.processMatch oracle j)) < pendCount t :=
            Nat.lt_of_le_of_lt (foldl_processMatch_pend_le oracle _ _)
              (processMatch_pend_lt oracle t j hjmem hsome)
          rw [hl2]
          omega
        rw [hstep, hbody]
        exact ih _ hInv2 hw2 hμ2


theorem live_singleton_iff (cs : List Contestant) (w : String)
    (hnd : (cs.map (·.id)).Nodup) (hl : liveIds cs = [w]) :
    ∀ c ∈ cs, (c.eliminated = false ↔ c.id = w) := by
  intro c hc
  constructor
  · intro hel
    have hm : c.id ∈ liveIds cs := mem_liveIds.2 ⟨c, hc, hel, rfl⟩
    rw [hl] at hm
    exact List.mem_singleton.1 hm
  · intro hid
    have hwmem : w ∈ liveIds cs := by
      rw [hl]
      exact List.mem_singleton_self w
    rcases mem_liveIds.1 hwmem with ⟨c2, hc2, hel2, hid2⟩
    have hcc : c = c2 := List.inj_on_of_nodup_map hnd hc hc2 (by rw [hid, hid2])
    rw [hcc]
    exact hel2

/-- C1: for every pool of N ≥ 1 registered contestants (distinct ids, none
    pre-eliminated), running the engine with a total oracle and a
    permutation-valued shuffle terminates within `runFuel N` loop
    iterations in a state whose `winner_id` is `some w` for a single id
    `w` drawn from the pool; the surviving contestant set still carries
    exactly the original ids, the winner's record has `eliminated = false`,
    and every other original contestant has `eliminated = true`. -/
theorem C1_engine_completion (oracle : Nat → Option String)
    (shuffle : List String → List String) (batch_size : Nat)
    (cs : List Contestant)
    (hsh : ∀ l, ((shuffle l).Perm l)) (ho : ∀ n, (oracle n).isSome = true)
    (hbs : 0 < batch_size) (hne : cs ≠ [])
    (hnd : (cs.map (·.id)).Nodup) (hlv : ∀ c ∈ cs, c.eliminated = false) :
    ∃ t0 w, initializeTournament shuffle cs = some t0 ∧
      (Tournament.runLoop oracle shuffle batch_size (runFuel cs.length)
        t0).state.winner_id = some w ∧
      w ∈ cs.map (·.id) ∧
      (Tournament.runLoop oracle shuffle batch_size (runFuel cs.length)
        t0).contestants.map (·.id) = cs.map (·.id) ∧
      ∀ c ∈ (Tournament.runLoop oracle shuffle batch_size (runFuel cs.length)
        t0).contestants, (c.eliminated = false ↔ c.id = w) := by
  obtain ⟨t0, hinit, hInv0, hw0⟩ := initialize_inv shuffle hsh cs hne hnd hlv
  have hμ0 : liveCount t0 * ((cs.map (·.id)).length + 1) + pendCount t0 <
      runFuel cs.length := by
    have h1 : liveCount t0 ≤ cs.length := by
      have h1a := live_le_orig hInv0.ids_orig
      rwa [List.length_map] at h1a
    have h2 : pendCount t0 ≤ liveCount t0 :=
      Nat.le_trans (pend_le_cur t0) hInv0.cur_le_live
    unfold runFuel
    rw [List.length_map]
    have h3 : liveCount t0 * (cs.length + 1) ≤ cs.length * (cs.length + 1) :=
      Nat.mul_le_mul_right _ h1
    omega
  obtain ⟨w, hwin, hlive, hids⟩ := runLoop_reaches_winner oracle shuffle batch_size
    (cs.map (·.id)) hsh ho hbs (runFuel cs.length) t0 hInv0 hw0 hμ0
  refine ⟨t0, w, hinit, hwin, ?_, hids, ?_⟩
  · have hwm : w ∈ liveIds (Tournament.runLoop oracle shuffle batch_size
        (runFuel cs.length) t0).contestants := by
      rw [hlive]
      exact List.mem_singleton_self w
    rcases mem_liveIds.1 hwm with ⟨c, hc, _, hid⟩
    rw [← hids]
    exact List.mem_map.2 ⟨c, hc, hid⟩
  · refine live_singleton_iff _ w ?_ hlive
    rw [hids]
    exact hnd

/-- Closed witness for C1 on the two-image pool with an always-"A" oracle,
    the identity shuffle and batch size 1. -/
theorem C1_engine_completion_witness :
    ∃ t0 w, initializeTournament id demoPool2 = some t0 ∧
      (Tournament.runLoop (fun _ => some "A") id 1 (runFuel demoPool2.length)
        t0).state.winner_id = some w ∧
      w ∈ demoPool2.map (·.id) ∧
      (Tournament.runLoop (fun _ => some "A") id 1 (runFuel demoPool2.length)
        t0).contestants.map (·.id) = demoPool2.map (·.id) ∧
      ∀ c ∈ (Tournament.runLoop (fun _ => some "A") id 1 (runFuel demoPool2.length)
        t0).contestants, (c.eliminated = false ↔ c.id = w) :=
  C1_engine_completion (fun _ => some "A") id 1 demoPool2
    (fun l => List.Perm.refl l) (fun _ => rfl) (by decide) (by decide)
    (by decide) (by decide)

end AquaPfp
